import Mathlib

/-!
Verification of the foxglove data-platform client's decode pipeline and
progress-instrumented byte sources, as a shallow embedding of the Python
source (`foxglove/client.py`, `foxglove_data_platform/client.py`,
`foxglove/data_platform/client.py`) in Lean 4.

Bytes are modelled as `List Nat` (each entry < 256 where it matters), Python
dictionaries as association lists, exceptions as `Except`, and mutable
attributes as explicit state passing.
-/

namespace ProgressBuffer

/-- A byte source handed to `ProgressBufferReader.__init__`: either an
in-memory `bytes` buffer, or an already-open file handle together with its
current offset into its contents and the size `os.fstat(fileno).st_size`
reports for it (for an unbounded stream such as a socket or pipe this
fstat size is 0 — there is no "unknown" marker at this interface). -/
inductive Buf
  | bytes (data : List Nat)
  | handle (data : List Nat) (pos : Nat) (fstatSize : Nat)

/-- State of one `ProgressBufferReader`: the optional callback (modelled by
whether one was supplied), the `__progress` counter, the `__length`
determined in `__init__`, and the wrapped stream (`__buf`) as its contents
plus current position.  `BytesIO(buf)` starts at position 0. -/
structure Reader where
  hasCallback : Bool
  progress : Nat
  length : Nat
  data : List Nat
  pos : Nat

/-- `ProgressBufferReader.__init__`: a `bytes` buffer is wrapped in a fresh
`BytesIO` and `__length = len(buf)`; any other source keeps its position and
`__length = os.fstat(buf.fileno()).st_size`. -/
def init (buf : Buf) (hasCallback : Bool) : Reader :=
  match buf with
  | .bytes d => { hasCallback, progress := 0, length := d.length, data := d, pos := 0 }
  | .handle d p sz => { hasCallback, progress := 0, length := sz, data := d, pos := p }

/-- The chunk `self.__buf.read(n)` returns: `none` models `n = -1`/no bound
(read to end), `some k` reads at most `k` bytes from the current position. -/
def chunkOf (data : List Nat) (pos : Nat) : Option Nat → List Nat
  | none => data.drop pos
  | some k => (data.drop pos).take k

/-- One `read` on the bare underlying stream: the returned chunk and the
advanced position. -/
def rawRead (data : List Nat) (pos : Nat) (n : Option Nat) : List Nat × Nat :=
  (chunkOf data pos n, pos + (chunkOf data pos n).length)

/-- A whole sequence of `read(n)` calls against the bare underlying stream. -/
def rawReadMany (data : List Nat) (pos : Nat) : List (Option Nat) → List (List Nat) × Nat
  | [] => ([], pos)
  | n :: ns =>
    let c := chunkOf data pos n
    let rest := rawReadMany data (pos + c.length) ns
    (c :: rest.1, rest.2)

/-- Python's `x or 0` evaluated on the `int` field `self.__length`. -/
def orZero (n : Nat) : Nat := if n = 0 then 0 else n

/-- Result of one `ProgressBufferReader.read`: the chunk handed back to the
caller, the `(size, progress)` pair passed to the callback (if any), and the
updated reader state. -/
structure ReadResult where
  chunk : List Nat
  event : Option (Nat × Nat)
  reader : Reader

/-- `ProgressBufferReader.read`: `chunk = self.__buf.read(n) or bytes()`,
`self.__progress += len(chunk)`, then
`self.__callback(size=self.__length or 0, progress=self.__progress)`
when a callback was supplied, and the chunk is returned unchanged. -/
def Reader.read (r : Reader) (n : Option Nat) : ReadResult :=
  let c := chunkOf r.data r.pos n
  let progress := r.progress + c.length
  { chunk := c
  , event := if r.hasCallback then some (orZero r.length, progress) else none
  , reader := { r with pos := r.pos + c.length, progress := progress } }

/-- `ProgressBufferReader.tell` returns `self.__progress`. -/
def Reader.tell (r : Reader) : Nat := r.progress

/-- Accumulated outcome of a sequence of `read(n)` calls on one reader: all
chunks returned, all callback invocations in order, and the final state. -/
structure RunResult where
  chunks : List (List Nat)
  events : List (Nat × Nat)
  reader : Reader

/-- Run a sequence of `read(n)` calls against a `ProgressBufferReader`. -/
def readMany (r : Reader) : List (Option Nat) → RunResult
  | [] => { chunks := [], events := [], reader := r }
  | n :: ns =>
    let s := r.read n
    let rest := readMany s.reader ns
    { chunks := s.chunk :: rest.chunks
    , events := s.event.toList ++ rest.events
    , reader := rest.reader }

/-- Running sums: `partialSums s [a, b, c] = [s+a, s+a+b, s+a+b+c]`. -/
def partialSums (start : Nat) : List Nat → List Nat
  | [] => []
  | k :: ks => (start + k) :: partialSums (start + k) ks

/-- The total length determined up front in `__init__`. -/
def upfrontLength : Buf → Nat
  | .bytes d => d.length
  | .handle _ _ sz => sz

end ProgressBuffer

namespace Json

/-- Modelled from the spec: the structured values exchanged with the external
`json` library (`json.dumps` / `json.loads`), which is not part of this
repository.  Numbers are modelled as integers (floating point stays outside
the model); Python dicts are association lists in insertion order; strings
are lists of Unicode scalar values. -/
inductive Value
  | null
  | bool (b : Bool)
  | num (n : Int)
  | str (s : List Char)
  | arr (xs : List Value)
  | obj (fields : List (List Char × Value))

/-- `0`–`9` as a character. -/
def digitChar (d : Nat) : Char := Char.ofNat (48 + d)

/-- Decimal digits of a natural number, most significant first. -/
def natDigits (n : Nat) : List Char :=
  if n < 10 then [digitChar n]
  else natDigits (n / 10) ++ [digitChar (n % 10)]
decreasing_by exact Nat.div_lt_self (by omega) (by omega)

/-- Python's `repr` of an `int`, as `json.dumps` prints it. -/
def intDigits : Int → List Char
  | .ofNat n => natDigits n
  | .negSucc m => '-' :: natDigits (m + 1)

/-- A lowercase hexadecimal digit. -/
def hexDigit (d : Nat) : Char :=
  if d < 10 then Char.ofNat (48 + d) else Char.ofNat (87 + d)

/-- Four lowercase hex digits, as in a `\uXXXX` escape. -/
def hex4 (n : Nat) : List Char :=
  [hexDigit (n / 4096 % 16), hexDigit (n / 256 % 16), hexDigit (n / 16 % 16),
   hexDigit (n % 16)]

/-- Modelled from the spec: how `json.dumps` (with its default
`ensure_ascii=True`) prints one character of a string: `"` and `\` and the
five named control characters get two-character escapes, every other
character outside `0x20`–`0x7e` a `\uXXXX` escape (a surrogate pair for
astral characters), and the printable ASCII range is emitted as-is. -/
def escapeChar (c : Char) : List Char :=
  if c = '"' then ['\\', '"']
  else if c = '\\' then ['\\', '\\']
  else if c.toNat = 8 then ['\\', 'b']
  else if c.toNat = 12 then ['\\', 'f']
  else if c.toNat = 10 then ['\\', 'n']
  else if c.toNat = 13 then ['\\', 'r']
  else if c.toNat = 9 then ['\\', 't']
  else if 32 ≤ c.toNat ∧ c.toNat ≤ 126 then [c]
  else if c.toNat < 65536 then '\\' :: 'u' :: hex4 c.toNat
  else
    ('\\' :: 'u' :: hex4 (55296 + (c.toNat - 65536) / 1024)) ++
      ('\\' :: 'u' :: hex4 (56320 + (c.toNat - 65536) % 1024))

/-- The body of a JSON string literal: every character escaped as needed. -/
def escapeString : List Char → List Char
  | [] => []
  | c :: cs => escapeChar c ++ escapeString cs

mutual

/-- Modelled from the spec: `json.dumps` with the Python defaults
(`ensure_ascii=True`, item separator `", "`, key separator `": "`). -/
def dumps : Value → List Char
  | .null => 'n' :: ['u', 'l', 'l']
  | .bool true => 't' :: ['r', 'u', 'e']
  | .bool false => 'f' :: ['a', 'l', 's', 'e']
  | .num n => intDigits n
  | .str s => '"' :: (escapeString s ++ ['"'])
  | .arr xs => '[' :: (dumpsList xs ++ [']'])
  | .obj fs => Char.ofNat 123 :: (dumpsFields fs ++ [Char.ofNat 125])

/-- Array elements joined by `", "`. -/
def dumpsList : List Value → List Char
  | [] => []
  | x :: xs => dumps x ++ dumpsListSep xs

/-- The `", "`-prefixed continuation of an array body. -/
def dumpsListSep : List Value → List Char
  | [] => []
  | x :: xs => ',' :: ' ' :: (dumps x ++ dumpsListSep xs)

/-- Object members joined by `", "`. -/
def dumpsFields : List (List Char × Value) → List Char
  | [] => []
  | (k, v) :: fs => ('"' :: (escapeString k ++ '"' :: ':' :: ' ' :: dumps v)) ++ dumpsFieldsSep fs

/-- The `", "`-prefixed continuation of an object body. -/
def dumpsFieldsSep : List (List Char × Value) → List Char
  | [] => []
  | (k, v) :: fs =>
    ',' :: ' ' :: (('"' :: (escapeString k ++ '"' :: ':' :: ' ' :: dumps v)) ++ dumpsFieldsSep fs)

end

/-- The whitespace characters `json.loads` skips between tokens. -/
def isWsChar (c : Char) : Bool :=
  c = ' ' || c = '\t' || c = '\n' || c.toNat == 13

/-- Skip leading whitespace. -/
def skipWs : List Char → List Char
  | [] => []
  | c :: cs => if isWsChar c then skipWs cs else c :: cs

/-- ASCII decimal digit test. -/
def isDigitChar (c : Char) : Bool := 48 ≤ c.toNat && c.toNat ≤ 57

/-- Value of one hex digit, upper or lower case. -/
def hexVal (c : Char) : Option Nat :=
  if 48 ≤ c.toNat ∧ c.toNat ≤ 57 then some (c.toNat - 48)
  else if 97 ≤ c.toNat ∧ c.toNat ≤ 102 then some (c.toNat - 87)
  else if 65 ≤ c.toNat ∧ c.toNat ≤ 70 then some (c.toNat - 55)
  else none

/-- Value of four hex digits. -/
def hex4Val (a b c d : Char) : Option Nat :=
  match hexVal a, hexVal b, hexVal c, hexVal d with
  | some x, some y, some z, some w => some (x * 4096 + y * 256 + z * 16 + w)
  | _, _, _, _ => none

/-- Longest prefix of decimal digits. -/
def takeDigits : List Char → List Char × List Char
  | [] => ([], [])
  | c :: cs =>
    if isDigitChar c then
      ((c :: (takeDigits cs).1), (takeDigits cs).2)
    else ([], c :: cs)

/-- Numeric value of a digit string. -/
def digitsToNat (ds : List Char) : Nat :=
  ds.foldl (fun a c => 10 * a + (c.toNat - 48)) 0

mutual

/-- Modelled from the spec: the string scanner of `json.loads`, positioned
just after the opening quote.  Returns the decoded characters and the input
after the closing quote. -/
def parseString : List Char → Option (List Char × List Char)
  | [] => none
  | c :: cs =>
    if c = '"' then some ([], cs)
    else if c = '\\' then parseEscape cs
    else (parseString cs).map (fun p => (c :: p.1, p.2))
termination_by cs => cs.length

/-- The continuation after a backslash inside a string literal. -/
def parseEscape : List Char → Option (List Char × List Char)
  | [] => none
  | e :: cs2 =>
    if e = '"' then (parseString cs2).map (fun p => ('"' :: p.1, p.2))
    else if e = '\\' then (parseString cs2).map (fun p => ('\\' :: p.1, p.2))
    else if e = '/' then (parseString cs2).map (fun p => ('/' :: p.1, p.2))
    else if e = 'b' then (parseString cs2).map (fun p => (Char.ofNat 8 :: p.1, p.2))
    else if e = 'f' then (parseString cs2).map (fun p => (Char.ofNat 12 :: p.1, p.2))
    else if e = 'n' then (parseString cs2).map (fun p => ('\n' :: p.1, p.2))
    else if e = 'r' then (parseString cs2).map (fun p => (Char.ofNat 13 :: p.1, p.2))
    else if e = 't' then (parseString cs2).map (fun p => ('\t' :: p.1, p.2))
    else if e = 'u' then parseU cs2
    else none
termination_by cs => cs.length

/-- The continuation after `\u`: four hex digits, possibly followed by the
low half of a surrogate pair.  (A lone surrogate is not representable as a
Lean `Char`; the serializer never emits one.) -/
def parseU : List Char → Option (List Char × List Char)
  | a :: b :: c2 :: d :: cs3 =>
    match hex4Val a b c2 d with
    | none => none
    | some n =>
      if n < 55296 ∨ 57344 ≤ n then
        (parseString cs3).map (fun p => (Char.ofNat n :: p.1, p.2))
      else if n < 56320 then parseLowSurrogate n cs3
      else none
  | _ => none
termination_by cs => cs.length

/-- The low-surrogate escape completing an astral character. -/
def parseLowSurrogate (n : Nat) : List Char → Option (List Char × List Char)
  | e2 :: u2 :: a2 :: b2 :: c3 :: d2 :: cs4 =>
    if e2 = '\\' then
      if u2 = 'u' then
        match hex4Val a2 b2 c3 d2 with
        | none => none
        | some m =>
          if 56320 ≤ m ∧ m < 57344 then
            (parseString cs4).map (fun p =>
              (Char.ofNat (65536 + (n - 55296) * 1024 + (m - 56320)) :: p.1, p.2))
          else none
      else none
    else none
  | _ => none
termination_by cs => cs.length

end

/-- Match an exact literal prefix, returning the input after it. -/
def expectLit : List Char → List Char → Option (List Char)
  | [], cs => some cs
  | _ :: _, [] => none
  | l :: ls, c :: cs => if c = l then expectLit ls cs else none

mutual

/-- Modelled from the spec: the value scanner of `json.loads`.  `fuel`
bounds the recursion depth; `loads` supplies more fuel than any input can
consume.  Whitespace before the value has already been skipped.  (Numbers
are recognized as optional minus plus digits: integer payloads only, and
leading-zero laxness is invisible to round-trips since the serializer never
prints leading zeros.) -/
def parseValue : Nat → List Char → Option (Value × List Char)
  | 0, _ => none
  | _ + 1, [] => none
  | fuel + 1, c :: cs =>
    if c = 'n' then
      match expectLit ['u', 'l', 'l'] cs with
      | some r => some (.null, r)
      | none => none
    else if c = 't' then
      match expectLit ['r', 'u', 'e'] cs with
      | some r => some (.bool true, r)
      | none => none
    else if c = 'f' then
      match expectLit ['a', 'l', 's', 'e'] cs with
      | some r => some (.bool false, r)
      | none => none
    else if c = '"' then (parseString cs).map (fun p => (.str p.1, p.2))
    else if c = '[' then parseArray fuel (skipWs cs)
    else if c = Char.ofNat 123 then parseObject fuel (skipWs cs)
    else if c = '-' then
      match takeDigits cs with
      | ([], _) => none
      | (d :: ds, r) => some (.num (-(digitsToNat (d :: ds) : Int)), r)
    else if isDigitChar c then
      some (.num (digitsToNat (c :: (takeDigits cs).1)), (takeDigits cs).2)
    else none

/-- The array scanner, positioned after `[` with whitespace skipped. -/
def parseArray : Nat → List Char → Option (Value × List Char)
  | 0, _ => none
  | _ + 1, [] => none
  | fuel + 1, c :: r =>
    if c = ']' then some (.arr [], r)
    else
      match parseValue fuel (c :: r) with
      | none => none
      | some (v, r2) =>
        match parseElems fuel (skipWs r2) with
        | none => none
        | some (vs, r3) => some (.arr (v :: vs), r3)

/-- After one array element: either `]` or `,` and further elements. -/
def parseElems : Nat → List Char → Option (List Value × List Char)
  | 0, _ => none
  | _ + 1, [] => none
  | fuel + 1, c :: r =>
    if c = ']' then some ([], r)
    else if c = ',' then
      match parseValue fuel (skipWs r) with
      | none => none
      | some (v, r2) =>
        match parseElems fuel (skipWs r2) with
        | none => none
        | some (vs, r3) => some (v :: vs, r3)
    else none

/-- The object scanner, positioned after the opening brace with whitespace
skipped. -/
def parseObject : Nat → List Char → Option (Value × List Char)
  | 0, _ => none
  | _ + 1, [] => none
  | fuel + 1, c :: r =>
    if c = Char.ofNat 125 then some (.obj [], r)
    else if c = '"' then
      match parseString r with
      | none => none
      | some (k, r2) =>
        match skipWs r2 with
        | ':' :: r3 =>
          match parseValue fuel (skipWs r3) with
          | none => none
          | some (v, r4) =>
            match parseMembers fuel (skipWs r4) with
            | none => none
            | some (fs, r5) => some (.obj ((k, v) :: fs), r5)
        | _ => none
    else none

/-- After one object member: either the closing brace or `,` and further
members. -/
def parseMembers : Nat → List Char → Option (List (List Char × Value) × List Char)
  | 0, _ => none
  | _ + 1, [] => none
  | fuel + 1, c :: r =>
    if c = Char.ofNat 125 then some ([], r)
    else if c = ',' then
      match skipWs r with
      | c2 :: r2 =>
        if c2 = '"' then
          match parseString r2 with
          | none => none
          | some (k, r3) =>
            match skipWs r3 with
            | ':' :: r4 =>
              match parseValue fuel (skipWs r4) with
              | none => none
              | some (v, r5) =>
                match parseMembers fuel (skipWs r5) with
                | none => none
                | some (fs, r6) => some ((k, v) :: fs, r6)
            | _ => none
        else none
      | [] => none
    else none

end

/-- Modelled from the spec: `json.loads` — parse one value surrounded by
optional whitespace; anything else trailing is an error. -/
def loads (cs : List Char) : Option Value :=
  match parseValue (cs.length + 1) (skipWs cs) with
  | none => none
  | some (v, r) => if skipWs r = [] then some v else none

/-- UTF-8 encoding of one scalar value, as `str.encode("utf-8")` emits it. -/
def utf8EncodeChar (c : Char) : List Nat :=
  let n := c.toNat
  if n < 128 then [n]
  else if n < 2048 then [192 + n / 64, 128 + n % 64]
  else if n < 65536 then [224 + n / 4096, 128 + n / 64 % 64, 128 + n % 64]
  else [240 + n / 262144, 128 + n / 4096 % 64, 128 + n / 64 % 64, 128 + n % 64]

/-- Modelled from the spec: `str.encode("utf-8")` over a whole string. -/
def utf8Encode : List Char → List Nat
  | [] => []
  | c :: cs => utf8EncodeChar c ++ utf8Encode cs

mutual

/-- Modelled from the spec: `bytes.decode("utf-8")` — strict UTF-8 decoding,
rejecting stray continuation bytes, overlong forms, surrogates and
out-of-range values. -/
def utf8Decode : List Nat → Option (List Char)
  | [] => some []
  | b :: bs =>
    if b < 128 then (utf8Decode bs).map (fun s => Char.ofNat b :: s)
    else if b < 192 then none
    else if b < 224 then utf8Decode2 b bs
    else if b < 240 then utf8Decode3 b bs
    else if b < 248 then utf8Decode4 b bs
    else none
termination_by bs => bs.length

/-- Continuation of a two-byte UTF-8 sequence. -/
def utf8Decode2 (b : Nat) : List Nat → Option (List Char)
  | b2 :: bs2 =>
    if 128 ≤ b2 ∧ b2 < 192 then
      if 128 ≤ (b - 192) * 64 + (b2 - 128) then
        (utf8Decode bs2).map (fun s => Char.ofNat ((b - 192) * 64 + (b2 - 128)) :: s)
      else none
    else none
  | [] => none
termination_by bs => bs.length

/-- Continuation of a three-byte UTF-8 sequence. -/
def utf8Decode3 (b : Nat) : List Nat → Option (List Char)
  | b2 :: b3 :: bs2 =>
    if 128 ≤ b2 ∧ b2 < 192 ∧ 128 ≤ b3 ∧ b3 < 192 then
      if 2048 ≤ (b - 224) * 4096 + (b2 - 128) * 64 + (b3 - 128) ∧
          ¬(55296 ≤ (b - 224) * 4096 + (b2 - 128) * 64 + (b3 - 128) ∧
            (b - 224) * 4096 + (b2 - 128) * 64 + (b3 - 128) < 57344) then
        (utf8Decode bs2).map (fun s =>
          Char.ofNat ((b - 224) * 4096 + (b2 - 128) * 64 + (b3 - 128)) :: s)
      else none
    else none
  | _ => none
termination_by bs => bs.length

/-- Continuation of a four-byte UTF-8 sequence. -/
def utf8Decode4 (b : Nat) : List Nat → Option (List Char)
  | b2 :: b3 :: b4 :: bs2 =>
    if 128 ≤ b2 ∧ b2 < 192 ∧ 128 ≤ b3 ∧ b3 < 192 ∧ 128 ≤ b4 ∧ b4 < 192 then
      if 65536 ≤ (b - 240) * 262144 + (b2 - 128) * 4096 + (b3 - 128) * 64 + (b4 - 128) ∧
          (b - 240) * 262144 + (b2 - 128) * 4096 + (b3 - 128) * 64 + (b4 - 128) < 1114112 then
        (utf8Decode bs2).map (fun s =>
          Char.ofNat ((b - 240) * 262144 + (b2 - 128) * 4096 + (b3 - 128) * 64 + (b4 - 128)) :: s)
      else none
    else none
  | _ => none
termination_by bs => bs.length

end

/-- The characters a serialized JSON value can start with. -/
def starterChar (c : Char) : Bool :=
  c = 'n' || c = 't' || c = 'f' || c = '"' || c = '[' || c = Char.ofNat 123 ||
    c = '-' || isDigitChar c

/-- Input that cannot extend a just-parsed number: empty, or starting with a
non-digit. -/
def numBoundary : List Char → Bool
  | [] => true
  | c :: _ => !(isDigitChar c)

mutual

/-- Recursion depth (fuel) sufficient for `parseValue` on a printed value. -/
def needV : Value → Nat
  | .null => 1
  | .bool _ => 1
  | .num _ => 1
  | .str _ => 1
  | .arr xs => 1 + needList xs
  | .obj fs => 1 + needFields fs

/-- Fuel sufficient for `parseArray`/`parseElems` on a printed element list. -/
def needList : List Value → Nat
  | [] => 1
  | x :: t => 1 + max (needV x) (needList t)

/-- Fuel sufficient for `parseObject`/`parseMembers` on printed members. -/
def needFields : List (List Char × Value) → Nat
  | [] => 1
  | (_, v) :: t => 1 + max (needV v) (needFields t)

end

/-- The value round-trip statement at size bound `n`. -/
def ParsesVal (n : Nat) : Prop :=
  ∀ v : Value, sizeOf v ≤ n → ∀ fuel rest, needV v ≤ fuel → numBoundary rest = true →
    parseValue fuel (dumps v ++ rest) = some (v, rest)

/-- The array-tail round-trip statement at size bound `n`. -/
def ParsesElems (n : Nat) : Prop :=
  ∀ xs : List Value, sizeOf xs ≤ n → ∀ fuel rest, needList xs ≤ fuel →
    parseElems fuel (dumpsListSep xs ++ ']' :: rest) = some (xs, rest)

/-- The object-tail round-trip statement at size bound `n`. -/
def ParsesMembers (n : Nat) : Prop :=
  ∀ fs : List (List Char × Value), sizeOf fs ≤ n → ∀ fuel rest, needFields fs ≤ fuel →
    parseMembers fuel (dumpsFieldsSep fs ++ Char.ofNat 125 :: rest) = some (fs, rest)

/-- The JSON decoder of `_JsonDecoderFactory.decoder_for` (`foxglove/client.py`)
and `JsonDecoder.decode` (`foxglove_data_platform/client.py`):
`json.loads(message_content.decode("utf-8"))` over the byte payload. -/
def jsonDecode (message_content : List Nat) : Option Value :=
  (utf8Decode message_content).bind (fun s => loads s)

/-- The JSON payload encoding used by the test data generator
(`tests/generate.py`): `json.dumps(v).encode("utf-8")`. -/
def jsonEncode (v : Value) : List Nat :=
  utf8Encode (dumps v)

end Json

namespace HttpJson

/-- An HTTP response as `json_or_raise` sees it: the integer status code, the
result of `response.json()` (`none` when the body does not parse as JSON, in
which case `response.json()` raises `ValueError`), and the current
`response.reason`.  The reason is carried as a JSON value because the 4xx
branch may overwrite it with the server-supplied `"error"` value, which need
not be a string. -/
structure Response where
  status_code : Nat
  bodyJson : Option Json.Value
  reason : Json.Value

/-- The observable outcome of `json_or_raise`: the parsed body, the
`HTTPError("500 Server Error: Unexpected format")` raised on an unparsable
body, the `HTTPError` raised by `raise_for_status` (carrying the response's
reason at raise time), or the `AttributeError` from calling `.get` on a
non-dict JSON body. -/
inductive Result
  | ok (body : Json.Value)
  | badFormat
  | httpStatusError (status : Nat) (reason : Json.Value)
  | attributeError

/-- The string key `"error"`. -/
def errorKey : List Char := ['e', 'r', 'r', 'o', 'r']

/-- Python `dict.get`: the value stored for a key.  The dict built by
`json.loads` keeps the last value bound to a duplicated key, so the last
match wins. -/
def lookupField : List (List Char × Json.Value) → List Char → Option Json.Value
  | [], _ => none
  | (k, v) :: fs, key =>
    match lookupField fs key with
    | some w => some w
    | none => if k = key then some v else none

/-- Modelled from the spec: `requests.Response.raise_for_status` raises
`HTTPError` exactly for status codes in [400, 500) (client error) and
[500, 600) (server error), with the response's current reason in the
message. -/
def raise_for_status (status : Nat) (reason : Json.Value) : Option (Nat × Json.Value) :=
  if 400 ≤ status ∧ status < 500 then some (status, reason)
  else if 500 ≤ status ∧ status < 600 then some (status, reason)
  else none

/-- `json_or_raise` (`foxglove/client.py:133` and
`foxglove_data_platform/client.py:128`): parse the body (raising an
`HTTPError` with message "500 Server Error: Unexpected format" when it is
not JSON), for client errors let `response.reason = json.get("error",
response.reason)`, then `response.raise_for_status()`, and return the parsed
body. -/
def json_or_raise (r : Response) : Result :=
  match r.bodyJson with
  | none => .badFormat
  | some j =>
    if 400 ≤ r.status_code ∧ r.status_code < 500 then
      match j with
      | .obj fields =>
        match raise_for_status r.status_code ((lookupField fields errorKey).getD r.reason) with
        | some (st, reason) => .httpStatusError st reason
        | none => .ok j
      | _ => .attributeError
    else
      match raise_for_status r.status_code r.reason with
      | some (st, reason) => .httpStatusError st reason
      | none => .ok j

end HttpJson

namespace DataPlatform

/-- `mcap.records.Schema` as `get_messages` consumes it. -/
structure Schema where
  id : Nat
  name : List Char
  encoding : List Char
  data : List Nat

/-- `mcap.records.Channel`. -/
structure Channel where
  id : Nat
  topic : List Char
  message_encoding : List Char
  schema_id : Nat

/-- `mcap.records.Message`; the payload stays raw bytes. -/
structure Message where
  channel_id : Nat
  log_time : Nat
  publish_time : Nat
  data : List Nat

/-- Which optional decoder packages imported successfully.  The module-level
try/except blocks replace a missing decoder class by `_err_on_construction`,
a constructor that raises `RuntimeError` when called. -/
structure Avail where
  ros1 : Bool
  ros2 : Bool
  protobuf : Bool

/-- A constructed decoder instance. -/
inductive Decoder
  | ros1
  | ros2
  | protobuf
  | json

/-- Python exceptions `get_messages` can raise. -/
inductive PyErr
  | runtimeNoDecoder (encoding : List Char)
  | runtimeImport (encoding : List Char)
  | decodeError

def ros1msg : List Char := ['r', 'o', 's', '1', 'm', 's', 'g']

def ros2msg : List Char := ['r', 'o', 's', '2', 'm', 's', 'g']

def protobufEnc : List Char := ['p', 'r', 'o', 't', 'o', 'b', 'u', 'f']

def jsonschemaEnc : List Char := ['j', 's', 'o', 'n', 's', 'c', 'h', 'e', 'm', 'a']

/-- `decoder_for_schema_encoding` (`foxglove_data_platform/client.py:51`):
construct a decoder for a schema-encoding tag, raising `RuntimeError` for an
unknown tag, or from `_err_on_construction` when the matching decoder
package failed to import. -/
def decoder_for_schema_encoding (a : Avail) (encoding_string : List Char) :
    Except PyErr Decoder :=
  if encoding_string = ros1msg then
    if a.ros1 then .ok .ros1 else .error (.runtimeImport encoding_string)
  else if encoding_string = ros2msg then
    if a.ros2 then .ok .ros2 else .error (.runtimeImport encoding_string)
  else if encoding_string = protobufEnc then
    if a.protobuf then .ok .protobuf else .error (.runtimeImport encoding_string)
  else if encoding_string = jsonschemaEnc then .ok .json
  else .error (.runtimeNoDecoder encoding_string)

/-- A decoded message payload.  `JsonDecoder.decode` is
`json.loads(message.data.decode("utf-8"))`; the ros1/ros2/protobuf decoders
live in external packages, so their structured output is opaque here. -/
inductive Decoded
  | json (v : Json.Value)
  | ros1 (raw : List Nat)
  | ros2 (raw : List Nat)
  | protobuf (raw : List Nat)

/-- `decoder.decode(schema, message)`. -/
def Decoder.decode : Decoder → Schema → Message → Except PyErr Decoded
  | .json, _, m =>
    match Json.jsonDecode m.data with
    | some v => .ok (.json v)
    | none => .error .decodeError
  | .ros1, _, m => .ok (.ros1 m.data)
  | .ros2, _, m => .ok (.ros2 m.data)
  | .protobuf, _, m => .ok (.protobuf m.data)

/-- The mutable state of the `get_messages` loop: the `decoders` dict keyed
by schema encoding, the `output_messages` list, and a ghost trace of the
encodings for which a decoder instance was successfully constructed. -/
structure LoopState where
  decoders : List (List Char × Decoder)
  output : List (List Char × Message × Decoded)
  constructed : List (List Char)

/-- Python `encoding in decoders` / `decoders[encoding]`. -/
def lookupD : List (List Char × Decoder) → List Char → Option Decoder
  | [], _ => none
  | (k, v) :: ds, key => if k = key then some v else lookupD ds key

/-- The `for schema, channel, message in reader.iter_messages()` loop of
`Client.get_messages` (`foxglove_data_platform/client.py:294`): reuse the
cached decoder for the schema's encoding or construct and cache one, then
append `(channel.topic, message, decoder.decode(schema, message))`.  An
exception stops the loop; the state reached so far is kept alongside it so
that the construction trace can be inspected. -/
def get_messages_loop (a : Avail) :
    List (Schema × Channel × Message) → LoopState → LoopState × Option PyErr
  | [], st => (st, none)
  | (schema, channel, message) :: rest, st =>
    match lookupD st.decoders schema.encoding with
    | some decoder =>
      match decoder.decode schema message with
      | .ok dec => get_messages_loop a rest
          { st with output := st.output ++ [(channel.topic, message, dec)] }
      | .error e => (st, some e)
    | none =>
      match decoder_for_schema_encoding a schema.encoding with
      | .ok decoder =>
        match decoder.decode schema message with
        | .ok dec => get_messages_loop a rest
            { decoders := st.decoders ++ [(schema.encoding, decoder)]
            , output := st.output ++ [(channel.topic, message, dec)]
            , constructed := st.constructed ++ [schema.encoding] }
        | .error e =>
          let st2 : LoopState :=
            { st with
              decoders := st.decoders ++ [(schema.encoding, decoder)]
              constructed := st.constructed ++ [schema.encoding] }
          (st2, some e)
      | .error e => (st, some e)

/-- `Client.get_messages`: drain the loop; a raised exception propagates and
no partial `output_messages` list is returned. -/
def get_messages (a : Avail) (records : List (Schema × Channel × Message)) :
    Except PyErr (List (List Char × Message × Decoded)) :=
  match get_messages_loop a records ⟨[], [], []⟩ with
  | (st, none) => .ok st.output
  | (_, some e) => .error e

/-- A record on an encoding whose decoder package is unavailable. -/
def sampleBad : Schema × Channel × Message :=
  (⟨1, [], ros1msg, []⟩, ⟨1, [], [], 1⟩, ⟨1, 0, 0, []⟩)

/-- No optional decoder package imported. -/
def noAvail : Avail := ⟨false, false, false⟩

end DataPlatform

namespace McapStream

/-- A record of the self-describing binary log container, in arrival order
(spec §4.1): a schema definition, a channel definition, or a message. -/
inductive Record
  | schemaDef (s : DataPlatform.Schema)
  | channelDef (c : DataPlatform.Channel)
  | message (m : DataPlatform.Message)

/-- A decoder instance produced by some decoder factory. -/
inductive McDecoder
  | json
  | ros1
  | ros2
  | protobuf

/-- `"json"`, the message encoding `_JsonDecoderFactory` recognizes. -/
def jsonEnc : List Char := ['j', 's', 'o', 'n']

/-- A decoder factory handed to `make_reader` (`foxglove/client.py`):
`_JsonDecoderFactory` is defined in the source; the optional ros1/protobuf/
ros2 factories come from external packages and are modelled from the spec
with their well-known message-encoding tags. -/
inductive Factory
  | jsonFactory
  | ros1Factory
  | protobufFactory
  | ros2Factory

/-- `DecoderFactory.decoder_for(message_encoding, schema)`:
`_JsonDecoderFactory` returns its decoder exactly for encoding `"json"` and
ignores the schema; the optional factories match their own tags. -/
def Factory.decoder_for : Factory → List Char → Option McDecoder
  | .jsonFactory, enc => if enc = jsonEnc then some .json else none
  | .ros1Factory, enc => if enc = ['r', 'o', 's', '1'] then some .ros1 else none
  | .protobufFactory, enc => if enc = ['p', 'r', 'o', 't', 'o', 'b', 'u', 'f'] then
      some .protobuf else none
  | .ros2Factory, enc => if enc = ['c', 'd', 'r'] then some .ros2 else none

/-- The first factory willing to build a decoder for an encoding tag. -/
def decoderFromFactories (factories : List Factory) (enc : List Char) : Option McDecoder :=
  match factories with
  | [] => none
  | f :: rest =>
    match f.decoder_for enc with
    | some d => some d
    | none => decoderFromFactories rest enc

/-- Decode one payload: the JSON decoder is
`json.loads(message_content.decode("utf-8"))`; the others live in external
packages and their structured output is opaque here. -/
def McDecoder.decode : McDecoder → List Nat → Option DataPlatform.Decoded
  | .json, bytes =>
    match Json.jsonDecode bytes with
    | some v => some (.json v)
    | none => none
  | .ros1, bytes => some (.ros1 bytes)
  | .ros2, bytes => some (.ros2 bytes)
  | .protobuf, bytes => some (.protobuf bytes)

/-- The reader's lookup tables (spec §4.3): schemas and channels seen so
far, and the per-encoding decoder cache of the registry (spec §4.2). -/
structure ReaderState where
  schemas : List (Nat × DataPlatform.Schema)
  channels : List (Nat × DataPlatform.Channel)
  decoders : List (List Char × McDecoder)

/-- Association-list lookup keyed by record id. -/
def lookupId {α : Type} : List (Nat × α) → Nat → Option α
  | [], _ => none
  | (k, v) :: rest, key => if k = key then some v else lookupId rest key

/-- Association-list lookup keyed by encoding tag. -/
def lookupEnc : List (List Char × McDecoder) → List Char → Option McDecoder
  | [], _ => none
  | (k, v) :: rest, key => if k = key then some v else lookupEnc rest key

/-- The failures of the decoded-message iterator (spec §7). -/
inductive IterErr
  | unknownChannel (id : Nat)
  | unknownSchema (id : Nat)
  | unsupportedEncoding (enc : List Char)
  | decodeFailure

/-- One decoded four-tuple. -/
abbrev DecodedTuple :=
  DataPlatform.Schema × DataPlatform.Channel × DataPlatform.Message × DataPlatform.Decoded

/-- Modelled from the spec (§4.3): the decoded-message iterator of the
external mcap reader, consuming arrival-ordered records.  Schema and channel
definitions update the lookup tables and yield nothing; a message is
resolved to its channel and schema, a decoder is resolved through the
factory list with one cached decoder per encoding tag, and the four-tuple
is yielded.  Records are processed strictly in arrival order. -/
def iterDecoded (factories : List Factory) :
    List Record → ReaderState → Except IterErr (List DecodedTuple)
  | [], _ => .ok []
  | .schemaDef s :: rest, st =>
    iterDecoded factories rest { st with schemas := st.schemas ++ [(s.id, s)] }
  | .channelDef c :: rest, st =>
    iterDecoded factories rest { st with channels := st.channels ++ [(c.id, c)] }
  | .message m :: rest, st =>
    match lookupId st.channels m.channel_id with
    | none => .error (.unknownChannel m.channel_id)
    | some ch =>
      match lookupId st.schemas ch.schema_id with
      | none => .error (.unknownSchema ch.schema_id)
      | some sc =>
        match lookupEnc st.decoders ch.message_encoding with
        | some dec =>
          match dec.decode m.data with
          | none => .error .decodeFailure
          | some payload =>
            (iterDecoded factories rest st).map (fun out => (sc, ch, m, payload) :: out)
        | none =>
          match decoderFromFactories factories ch.message_encoding with
          | none => .error (.unsupportedEncoding ch.message_encoding)
          | some dec =>
            match dec.decode m.data with
            | none => .error .decodeFailure
            | some payload =>
              (iterDecoded factories rest
                  { st with decoders := st.decoders ++ [(ch.message_encoding, dec)] }).map
                (fun out => (sc, ch, m, payload) :: out)

/-- Insert into a list sorted by log time (stable). -/
def insertByLogTime (x : DecodedTuple) : List DecodedTuple → List DecodedTuple
  | [] => [x]
  | y :: rest =>
    if y.2.2.1.log_time ≤ x.2.2.1.log_time then y :: insertByLogTime x rest
    else x :: y :: rest

/-- Sort decoded tuples by log time (what `log_time_order=True` would do). -/
def sortByLogTime (l : List DecodedTuple) : List DecodedTuple :=
  l.foldr insertByLogTime []

/-- `McapReader.iter_decoded_messages(log_time_order=...)`: with
`log_time_order=True` the tuples are ordered by log time, with `False` they
are yielded in arrival order. -/
def iter_decoded_messages (factories : List Factory) (records : List Record)
    (log_time_order : Bool) : Except IterErr (List DecodedTuple) :=
  (iterDecoded factories records ⟨[], [], []⟩).map
    (fun out => if log_time_order then sortByLogTime out else out)

/-- `Client.iter_messages` (`foxglove/client.py:331`): build a reader over
the stream with the given decoder factories and return
`reader.iter_decoded_messages(log_time_order=False)` — the skip-sort path. -/
def iter_messages (factories : List Factory) (records : List Record) :
    Except IterErr (List DecodedTuple) :=
  iter_decoded_messages factories records false

/-- The message records of a container, in arrival order. -/
def messagesOf (records : List Record) : List DataPlatform.Message :=
  records.filterMap (fun r =>
    match r with
    | .message m => some m
    | _ => none)

/-- A sample schema for a concrete container. -/
def sampleSchema : DataPlatform.Schema := ⟨1, ['m'], DataPlatform.ros1msg, []⟩

/-- A sample ros1-encoded channel bound to `sampleSchema`. -/
def sampleChannel : DataPlatform.Channel := ⟨1, ['t'], ['r', 'o', 's', '1'], 1⟩

/-- A message with the later log time, arriving first. -/
def sampleMsg1 : DataPlatform.Message := ⟨1, 5, 5, [49]⟩

/-- A message with the earlier log time, arriving second. -/
def sampleMsg2 : DataPlatform.Message := ⟨1, 3, 3, [50]⟩

/-- A container whose messages arrive in decreasing log-time order. -/
def sampleRecords : List Record :=
  [.schemaDef sampleSchema, .channelDef sampleChannel,
   .message sampleMsg1, .message sampleMsg2]

/-- The tuples `iter_messages` yields for `sampleRecords`: arrival order. -/
def sampleOut : List DecodedTuple :=
  [(sampleSchema, sampleChannel, sampleMsg1, .ros1 [49]),
   (sampleSchema, sampleChannel, sampleMsg2, .ros1 [50])]

end McapStream

namespace Defaults

/-- The mutable contents of one decoder-factory instance: a tag for which
factory it is and the internal cache external factories build up while
decoding ("these factories might be mutated", `foxglove/client.py:318`). -/
structure FactoryState where
  kind : Nat
  cache : List (List Char)

/-- The Python object heap restricted to factory instances: one cell per
allocated factory object, addressed by allocation index. -/
structure Heap where
  cells : List FactoryState

/-- Dereference a factory object. -/
def Heap.get (h : Heap) (r : Nat) : Option FactoryState := h.cells[r]?

/-- Overwrite a factory object's state in place. -/
def Heap.set (h : Heap) (r : Nat) (s : FactoryState) : Heap := ⟨h.cells.set r s⟩

/-- Allocate a fresh factory object. -/
def Heap.alloc (h : Heap) (s : FactoryState) : Heap × Nat :=
  (⟨h.cells ++ [s]⟩, h.cells.length)

/-- `copy.deepcopy` on a list of factory references: allocate a fresh cell
holding a copy of each referenced state, leaving the originals untouched,
and return the fresh references. -/
def deepcopy (h : Heap) : List Nat → Heap × List Nat
  | [] => (h, [])
  | r :: rest =>
    let s := (h.get r).getD ⟨0, []⟩
    let h2 := (h.alloc s).1
    let r2 := (h.alloc s).2
    let h3 := (deepcopy h2 rest).1
    (h3, r2 :: (deepcopy h2 rest).2)

/-- One decode step may mutate any of the session's factory instances:
append the processed record's encoding to each session factory's cache. -/
def mutateAll (e : List Char) : Heap → List Nat → Heap
  | h, [] => h
  | h, r :: rest =>
    match h.get r with
    | some s => mutateAll e (h.set r { s with cache := s.cache ++ [e] }) rest
    | none => mutateAll e h rest

/-- Modelled from the spec (§5): a decode session over one stream mutates
only the factory instances it was handed — per processed record it may
update their internal caches. -/
def runSession (refs : List Nat) : Heap → List (List Char) → Heap
  | h, [] => h
  | h, e :: msgs => runSession refs (mutateAll e h refs) msgs

/-- `Client.get_messages` / `Client.iter_messages` with `decoder_factories`
omitted (`foxglove/client.py:317-320,362-365`): the session runs on
`copy.deepcopy(DEFAULT_DECODER_FACTORIES)`, never on the default list
itself. -/
def run_with_default_factories (h : Heap) (defaults : List Nat)
    (msgs : List (List Char)) : Heap × List Nat :=
  let h2 := (deepcopy h defaults).1
  let copies := (deepcopy h defaults).2
  (runSession copies h2 msgs, copies)

end Defaults

namespace ProgressBuffer

theorem orZero_eq (n : Nat) : orZero n = n := by
  unfold orZero; split <;> omega

theorem readMany_fixed (r : Reader) (ns : List (Option Nat)) :
    (readMany r ns).reader.hasCallback = r.hasCallback ∧
    (readMany r ns).reader.length = r.length ∧
    (readMany r ns).reader.data = r.data := by
  induction ns generalizing r with
  | nil => exact ⟨rfl, rfl, rfl⟩
  | cons n ns ih => exact ih _

theorem readMany_progress (r : Reader) (ns : List (Option Nat)) :
    (readMany r ns).reader.progress =
      r.progress + ((readMany r ns).chunks.map List.length).sum := by
  induction ns generalizing r with
  | nil => simp [readMany]
  | cons n ns ih =>
    simp only [readMany, List.map_cons, List.sum_cons, ih]
    simp [Reader.read]
    omega

theorem readMany_pos (r : Reader) (ns : List (Option Nat)) :
    (readMany r ns).reader.pos =
      r.pos + ((readMany r ns).chunks.map List.length).sum := by
  induction ns generalizing r with
  | nil => simp [readMany]
  | cons n ns ih =>
    simp only [readMany, List.map_cons, List.sum_cons, ih]
    simp [Reader.read]
    omega

theorem readMany_chunks_raw (r : Reader) (ns : List (Option Nat)) :
    (readMany r ns).chunks = (rawReadMany r.data r.pos ns).1 := by
  induction ns generalizing r with
  | nil => rfl
  | cons n ns ih =>
    simp only [readMany, rawReadMany, Reader.read]
    exact congrArg _ (ih _)

theorem readMany_events (r : Reader) (h : r.hasCallback = true) (ns : List (Option Nat)) :
    (readMany r ns).events =
      (partialSums r.progress ((readMany r ns).chunks.map List.length)).map
        (fun p => (orZero r.length, p)) := by
  induction ns generalizing r with
  | nil => rfl
  | cons n ns ih =>
    simp only [readMany, Reader.read, h, if_true, Option.toList_some,
      List.map_cons, partialSums, List.singleton_append]
    exact congrArg _ (ih _ rfl)

theorem partialSums_getLast? (start k : Nat) (l : List Nat) :
    (partialSums start (k :: l)).getLast? = some (start + k + l.sum) := by
  induction l generalizing start k with
  | nil => simp [partialSums]
  | cons k2 ks ih =>
    rw [show partialSums start (k :: k2 :: ks) =
      (start + k) :: (start + k + k2) :: partialSums (start + k + k2) ks from rfl]
    rw [List.getLast?_cons_cons]
    have h2 := ih (start + k) k2
    rw [show partialSums (start + k) (k2 :: ks) =
      (start + k + k2) :: partialSums (start + k + k2) ks from rfl] at h2
    rw [h2]
    simp only [List.sum_cons, Option.some.injEq]
    omega

theorem partialSums_chain (start : Nat) (l : List Nat) :
    List.Chain' (· ≤ ·) (start :: partialSums start l) := by
  induction l generalizing start with
  | nil => simp [partialSums]
  | cons k ks ih =>
    rw [partialSums]
    exact List.Chain'.cons (by omega) (ih (start + k))

theorem partialSums_length (start : Nat) (l : List Nat) :
    (partialSums start l).length = l.length := by
  induction l generalizing start with
  | nil => rfl
  | cons k ks ih => simp [partialSums, ih]

theorem partialSums_getLast?_of_ne_nil (start : Nat) (l : List Nat) (h : l ≠ []) :
    (partialSums start l).getLast? = some (start + l.sum) := by
  cases l with
  | nil => exact absurd rfl h
  | cons k ks =>
    rw [partialSums_getLast?]
    simp only [List.sum_cons, Option.some.injEq]
    omega

theorem readMany_chunks_length (r : Reader) (ns : List (Option Nat)) :
    (readMany r ns).chunks.length = ns.length := by
  induction ns generalizing r with
  | nil => rfl
  | cons n ns ih => simp [readMany, ih]

/-- C5 (amended): every callback invocation reports a `size` equal to the
total length determined up front in `__init__` — `len(buf)` for a `bytes`
buffer and the `os.fstat` size for an open handle.  When that up-front
length is 0 (as for an unbounded stream, whose fstat size is 0) the callback
receives size 0; no "unknown" marker exists at this interface. -/
theorem callback_size_is_upfront_length (buf : Buf) (ns : List (Option Nat)) :
    ∀ e ∈ (readMany (init buf true) ns).events, e.1 = upfrontLength buf := by
  intro e he
  rw [readMany_events (init buf true) (by cases buf <;> rfl) ns] at he
  obtain ⟨p, _, rfl⟩ := List.mem_map.mp he
  show orZero (init buf true).length = upfrontLength buf
  rw [orZero_eq]
  cases buf <;> rfl

theorem callback_size_is_upfront_length_witness :
    ((3 : Nat), (2 : Nat)) ∈
      (readMany (init (.bytes [1, 2, 3]) true) [some 2]).events ∧
    ((3 : Nat), (2 : Nat)).1 = upfrontLength (.bytes [1, 2, 3]) :=
  ⟨by decide,
   callback_size_is_upfront_length (.bytes [1, 2, 3]) [some 2] (3, 2) (by decide)⟩

/-- C5: the claim that an unknown total size "is reported as unknown and
never as zero" fails on the code — wrapping a handle whose fstat size is 0
(an unbounded stream) makes every callback receive `size = 0`: here a single
`read(2)` on such a source reports the event `(size 0, progress 2)`. -/
theorem callback_size_zero_for_unbounded_stream :
    (readMany (init (.handle [7, 7, 7] 0 0) true) [some 2]).events = [(0, 2)] := by
  decide

/-- C6: wrapping a byte buffer `b` with a callback and issuing `read` calls
that exhaust the buffer invokes the callback on every chunk, and the last
reported cumulative progress equals `len(b)`. -/
theorem exhausted_read_reports_full_length (b : List Nat) (ns : List (Option Nat))
    (hne : ns ≠ [])
    (hex : (readMany (init (.bytes b) true) ns).reader.pos = b.length) :
    (readMany (init (.bytes b) true) ns).reader.tell = b.length ∧
    (readMany (init (.bytes b) true) ns).events.length = ns.length ∧
    ((readMany (init (.bytes b) true) ns).events.map Prod.snd).getLast?
      = some b.length := by
  have hpos := readMany_pos (init (.bytes b) true) ns
  have hsum : ((readMany (init (.bytes b) true) ns).chunks.map List.length).sum
      = b.length := by
    rw [hpos] at hex
    simpa [init] using hex
  have hev := readMany_events (init (.bytes b) true) rfl ns
  have hsnd : (readMany (init (.bytes b) true) ns).events.map Prod.snd =
      partialSums 0 ((readMany (init (.bytes b) true) ns).chunks.map List.length) := by
    rw [hev, List.map_map]
    simp [init, Function.comp]
  refine ⟨?_, ?_, ?_⟩
  · rw [Reader.tell, readMany_progress,
      show (init (.bytes b) true).progress = 0 from rfl, Nat.zero_add, hsum]
  · rw [hev, List.length_map, partialSums_length, List.length_map,
      readMany_chunks_length]
  · rw [hsnd, partialSums_getLast?_of_ne_nil _ _ ?_, hsum]
    · simp
    · have := readMany_chunks_length (init (.bytes b) true) ns
      intro hnil
      rw [List.map_eq_nil_iff] at hnil
      rw [hnil] at this
      exact hne (List.length_eq_zero.mp this.symm)

theorem exhausted_read_reports_full_length_witness :
    ([some 2, some 2] : List (Option Nat)) ≠ [] ∧
    (readMany (init (.bytes [1, 2, 3]) true) [some 2, some 2]).reader.pos = 3 ∧
    ((readMany (init (.bytes [1, 2, 3]) true) [some 2, some 2]).reader.tell = 3 ∧
     (readMany (init (.bytes [1, 2, 3]) true) [some 2, some 2]).events.length = 2 ∧
     ((readMany (init (.bytes [1, 2, 3]) true) [some 2, some 2]).events.map
        Prod.snd).getLast? = some 3) :=
  ⟨by decide, by decide,
   exhausted_read_reports_full_length [1, 2, 3] [some 2, some 2]
     (by decide) (by decide)⟩

/-- C7: the progress wrapper is a transparent pass-through — for every
wrapped source and every sequence of `read(n)` calls, the chunks the
`ProgressBufferReader` returns are exactly those the bare underlying stream
returns for the same calls, identically whether a callback is supplied or
not. -/
theorem read_passthrough (buf : Buf) (cb : Bool) (ns : List (Option Nat)) :
    (readMany (init buf cb) ns).chunks =
      (rawReadMany (init buf cb).data (init buf cb).pos ns).1 ∧
    (readMany (init buf cb) ns).chunks = (readMany (init buf true) ns).chunks := by
  refine ⟨readMany_chunks_raw _ _, ?_⟩
  rw [readMany_chunks_raw, readMany_chunks_raw]
  cases buf <;> rfl

/-- C10: `tell()` returns the cumulative number of bytes returned by all
`read` calls so far: it starts at 0, equals the sum of the returned chunk
lengths, is exactly the progress value passed to each callback invocation in
order, is monotonically non-decreasing, and for a wrapped handle differs
from the underlying stream position by the handle's starting offset (so it
is not the underlying position when that offset is nonzero). -/
theorem tell_counts_returned_bytes (buf : Buf) (ns : List (Option Nat)) :
    (init buf true).tell = 0 ∧
    (readMany (init buf true) ns).reader.tell =
      ((readMany (init buf true) ns).chunks.map List.length).sum ∧
    (readMany (init buf true) ns).events.map Prod.snd =
      partialSums 0 ((readMany (init buf true) ns).chunks.map List.length) ∧
    List.Chain' (· ≤ ·) (0 :: (readMany (init buf true) ns).events.map Prod.snd) ∧
    (∀ d p sz, buf = .handle d p sz →
      (readMany (init buf true) ns).reader.pos =
        p + (readMany (init buf true) ns).reader.tell) := by
  have hsnd : (readMany (init buf true) ns).events.map Prod.snd =
      partialSums 0 ((readMany (init buf true) ns).chunks.map List.length) := by
    rw [readMany_events (init buf true) (by cases buf <;> rfl) ns, List.map_map]
    have h0 : (init buf true).progress = 0 := by cases buf <;> rfl
    rw [h0]
    simp [Function.comp]
  have h0 : (init buf true).progress = 0 := by cases buf <;> rfl
  refine ⟨by cases buf <;> rfl, ?_, hsnd, ?_, ?_⟩
  · rw [Reader.tell, readMany_progress, h0, Nat.zero_add]
  · rw [hsnd]
    exact partialSums_chain 0 _
  · intro d p sz hbuf
    subst hbuf
    rw [Reader.tell, readMany_pos, readMany_progress, h0, Nat.zero_add]
    rfl

theorem tell_counts_returned_bytes_witness :
    (Buf.handle [1, 2, 3, 4] 1 4 = Buf.handle [1, 2, 3, 4] 1 4) ∧
    (readMany (init (.handle [1, 2, 3, 4] 1 4) true) [some 2]).reader.pos =
      1 + (readMany (init (.handle [1, 2, 3, 4] 1 4) true) [some 2]).reader.tell :=
  ⟨rfl,
   (tell_counts_returned_bytes (.handle [1, 2, 3, 4] 1 4) [some 2]).2.2.2.2
     [1, 2, 3, 4] 1 4 rfl⟩

end ProgressBuffer

namespace Json

theorem expectLit_matched (l cs : List Char) : expectLit l (l ++ cs) = some cs := by
  induction l with
  | nil => rfl
  | cons x xs ih => rw [List.cons_append, expectLit, if_pos rfl, ih]

theorem toNat_ofNat_valid (n : Nat) (h : n.isValidChar) : (Char.ofNat n).toNat = n := by
  rw [Char.ofNat, dif_pos h]
  rfl

theorem ofNat_toNat_self (c : Char) : Char.ofNat c.toNat = c := by
  have h : c.toNat.isValidChar := c.valid
  rw [Char.ofNat, dif_pos h]
  apply Char.eq_of_val_eq
  apply UInt32.eq_of_toBitVec_eq
  apply BitVec.eq_of_toNat_eq
  rfl

theorem char_valid_cases (c : Char) :
    c.toNat < 55296 ∨ (57344 ≤ c.toNat ∧ c.toNat < 1114112) := by
  have h : c.toNat.isValidChar := c.valid
  rcases h with h | ⟨h1, h2⟩
  · exact Or.inl h
  · exact Or.inr ⟨by omega, h2⟩

theorem char_eq_iff {c d : Char} : c = d ↔ c.toNat = d.toNat := by
  constructor
  · intro h; rw [h]
  · intro h
    apply Char.eq_of_val_eq
    apply UInt32.eq_of_toBitVec_eq
    apply BitVec.eq_of_toNat_eq
    exact h

theorem isDigitChar_toNat {c : Char} (h : isDigitChar c = true) :
    48 ≤ c.toNat ∧ c.toNat ≤ 57 := by
  simpa [isDigitChar, Bool.and_eq_true, decide_eq_true_eq] using h

theorem ne_char_of_range {c : Char} {lo hi : Nat} (h1 : lo ≤ c.toNat) (h2 : c.toNat ≤ hi)
    (d : Char) (hd : d.toNat < lo ∨ hi < d.toNat) : c ≠ d := by
  rw [ne_eq, char_eq_iff]
  omega

theorem digit_not_ws {c : Char} (h : isDigitChar c = true) : isWsChar c = false := by
  have h48 := isDigitChar_toNat h
  simp only [isWsChar, Bool.or_eq_false_iff, decide_eq_false_iff_not]
  refine ⟨⟨⟨?_, ?_⟩, ?_⟩, ?_⟩
  · exact ne_char_of_range h48.1 h48.2 ' ' (by decide)
  · exact ne_char_of_range h48.1 h48.2 '\t' (by decide)
  · exact ne_char_of_range h48.1 h48.2 '\n' (by decide)
  · simp only [beq_eq_false_iff_ne, ne_eq]
    omega

theorem starter_facts {c : Char} (h : starterChar c = true) :
    isWsChar c = false ∧ c ≠ ']' ∧ c ≠ ',' ∧ c ≠ Char.ofNat 125 ∧ c ≠ ':' := by
  simp only [starterChar, Bool.or_eq_true, decide_eq_true_eq] at h
  rcases h with ((((((h | h) | h) | h) | h) | h) | h) | h
  all_goals try (subst h; exact ⟨by decide, by decide, by decide, by decide, by decide⟩)
  have h48 := isDigitChar_toNat h
  refine ⟨digit_not_ws h, ?_, ?_, ?_, ?_⟩
  · exact ne_char_of_range h48.1 h48.2 ']' (by decide)
  · exact ne_char_of_range h48.1 h48.2 ',' (by decide)
  · exact ne_char_of_range h48.1 h48.2 (Char.ofNat 125) (by decide)
  · exact ne_char_of_range h48.1 h48.2 ':' (by decide)

theorem digit_not_special {c : Char} (h : isDigitChar c = true) :
    c ≠ 'n' ∧ c ≠ 't' ∧ c ≠ 'f' ∧ c ≠ '"' ∧ c ≠ '[' ∧ c ≠ Char.ofNat 123 ∧ c ≠ '-' := by
  have h48 := isDigitChar_toNat h
  refine ⟨?_, ?_, ?_, ?_, ?_, ?_, ?_⟩
  · exact ne_char_of_range h48.1 h48.2 'n' (by decide)
  · exact ne_char_of_range h48.1 h48.2 't' (by decide)
  · exact ne_char_of_range h48.1 h48.2 'f' (by decide)
  · exact ne_char_of_range h48.1 h48.2 '"' (by decide)
  · exact ne_char_of_range h48.1 h48.2 '[' (by decide)
  · exact ne_char_of_range h48.1 h48.2 (Char.ofNat 123) (by decide)
  · exact ne_char_of_range h48.1 h48.2 '-' (by decide)

theorem skipWs_not_ws {c : Char} (h : isWsChar c = false) (l : List Char) :
    skipWs (c :: l) = c :: l := by
  rw [skipWs, h]
  rfl

theorem skipWs_starter {c : Char} (h : starterChar c = true) (l : List Char) :
    skipWs (c :: l) = c :: l :=
  skipWs_not_ws (starter_facts h).1 l

theorem digitChar_toNat {d : Nat} (h : d < 10) : (digitChar d).toNat = 48 + d := by
  rw [digitChar]
  exact toNat_ofNat_valid _ (Or.inl (by omega))

theorem isDigitChar_digitChar {d : Nat} (h : d < 10) : isDigitChar (digitChar d) = true := by
  have := digitChar_toNat h
  simp only [isDigitChar, Bool.and_eq_true, decide_eq_true_eq]
  omega

theorem natDigits_all_digits (n : Nat) : ∀ c ∈ natDigits n, isDigitChar c = true := by
  induction n using Nat.strong_induction_on with
  | _ n ih =>
    rw [natDigits]
    split
    · intro c hc
      rw [List.mem_singleton] at hc
      subst hc
      exact isDigitChar_digitChar (by omega)
    · intro c hc
      rw [List.mem_append] at hc
      rcases hc with hc | hc
      · exact ih (n / 10) (Nat.div_lt_self (by omega) (by omega)) c hc
      · rw [List.mem_singleton] at hc
        subst hc
        exact isDigitChar_digitChar (Nat.mod_lt _ (by omega))

theorem natDigits_ne_nil (n : Nat) : natDigits n ≠ [] := by
  rw [natDigits]
  split
  · simp
  · simp

theorem takeDigits_of_digits (ds : List Char) (rest : List Char)
    (hd : ∀ c ∈ ds, isDigitChar c = true) (hb : numBoundary rest = true) :
    takeDigits (ds ++ rest) = (ds, rest) := by
  induction ds with
  | nil =>
    cases rest with
    | nil => rfl
    | cons c t =>
      rw [numBoundary, Bool.not_eq_true'] at hb
      rw [List.nil_append, takeDigits, hb]
      rfl
  | cons c cs ih =>
    have hc : isDigitChar c = true := hd c (by simp)
    have := ih (fun x hx => hd x (by simp [hx]))
    rw [List.cons_append, takeDigits, hc, this]
    simp

theorem digitsToNat_append_singleton (ds : List Char) (d : Char) :
    digitsToNat (ds ++ [d]) = 10 * digitsToNat ds + (d.toNat - 48) := by
  rw [digitsToNat, digitsToNat, List.foldl_append]
  rfl

theorem digitsToNat_natDigits (n : Nat) : digitsToNat (natDigits n) = n := by
  induction n using Nat.strong_induction_on with
  | _ n ih =>
    rw [natDigits]
    split
    · rw [show [digitChar n] = [] ++ [digitChar n] from rfl, digitsToNat_append_singleton,
        digitChar_toNat (by omega)]
      simp [digitsToNat]
    · rw [digitsToNat_append_singleton, ih (n / 10) (Nat.div_lt_self (by omega) (by omega)),
        digitChar_toNat (Nat.mod_lt _ (by omega))]
      omega

theorem hexDigit_toNat {d : Nat} (h : d < 16) :
    (hexDigit d).toNat = if d < 10 then 48 + d else 87 + d := by
  rw [hexDigit]
  split
  · exact toNat_ofNat_valid _ (Or.inl (by omega))
  · exact toNat_ofNat_valid _ (Or.inl (by omega))

theorem hexVal_hexDigit {d : Nat} (h : d < 16) : hexVal (hexDigit d) = some d := by
  have ht := hexDigit_toNat h
  by_cases h10 : d < 10
  · rw [if_pos h10] at ht
    rw [hexVal, ht, if_pos (by omega)]
    congr 1
    omega
  · rw [if_neg h10] at ht
    rw [hexVal, ht, if_neg (by omega), if_pos (by omega)]
    congr 1
    omega

theorem hex4Val_hex4 {n : Nat} (h : n < 65536) :
    hex4Val (hexDigit (n / 4096 % 16)) (hexDigit (n / 256 % 16)) (hexDigit (n / 16 % 16))
      (hexDigit (n % 16)) = some n := by
  rw [hex4Val, hexVal_hexDigit (Nat.mod_lt _ (by omega)),
    hexVal_hexDigit (Nat.mod_lt _ (by omega)), hexVal_hexDigit (Nat.mod_lt _ (by omega)),
    hexVal_hexDigit (Nat.mod_lt _ (by omega))]
  show some (n / 4096 % 16 * 4096 + n / 256 % 16 * 256 + n / 16 % 16 * 16 + n % 16) = some n
  congr 1
  have k1 := Nat.div_add_mod (n % 4096) 256
  have k2 : n % 4096 % 256 = n % 256 := Nat.mod_mod_of_dvd n (by norm_num)
  have k3 := Nat.div_add_mod (n % 256) 16
  have k4 : n % 256 % 16 = n % 16 := Nat.mod_mod_of_dvd n (by norm_num)
  have k5 := Nat.div_add_mod n 4096
  have m1 := (Nat.mod_mul_right_div_self n 256 16).symm
  have m2 := (Nat.mod_mul_right_div_self n 16 16).symm
  rw [show (256 * 16 : Nat) = 4096 from by norm_num] at m1
  rw [show (16 * 16 : Nat) = 256 from by norm_num] at m2
  rw [Nat.mod_eq_of_lt (show n / 4096 < 16 by omega), m1, m2]
  omega

theorem parseString_cons_plain {c : Char} (h1 : ¬c = '"') (h2 : ¬c = '\\') (l : List Char) :
    parseString (c :: l) = (parseString l).map (fun p => (c :: p.1, p.2)) := by
  rw [parseString, if_neg h1, if_neg h2]

theorem valid_out_of_surrogates (c : Char) : c.toNat < 55296 ∨ 57344 ≤ c.toNat := by
  rcases char_valid_cases c with h | h
  · exact Or.inl h
  · exact Or.inr h.1

theorem parseString_escapeChar (c : Char) (l : List Char) :
    parseString (escapeChar c ++ l) = (parseString l).map (fun p => (c :: p.1, p.2)) := by
  have hbs : ¬('\\' : Char) = '"' := by decide
  by_cases h1 : c = '"'
  · subst h1
    rw [show escapeChar '"' = ['\\', '"'] from rfl, List.cons_append, List.cons_append,
      List.nil_append, parseString, if_neg hbs, if_pos rfl, parseEscape, if_pos rfl]
  by_cases h2 : c = '\\'
  · subst h2
    rw [show escapeChar '\\' = ['\\', '\\'] from rfl, List.cons_append, List.cons_append,
      List.nil_append, parseString, if_neg hbs, if_pos rfl, parseEscape,
      if_neg hbs, if_pos rfl]
  by_cases h3 : c.toNat = 8
  · have hc : Char.ofNat 8 = c := by rw [← h3, ofNat_toNat_self]
    rw [escapeChar, if_neg h1, if_neg h2, if_pos h3, List.cons_append, List.cons_append,
      List.nil_append, parseString, if_neg hbs, if_pos rfl, parseEscape,
      if_neg (by decide), if_neg (by decide), if_neg (by decide), if_pos rfl, hc]
  by_cases h4 : c.toNat = 12
  · have hc : Char.ofNat 12 = c := by rw [← h4, ofNat_toNat_self]
    rw [escapeChar, if_neg h1, if_neg h2, if_neg h3, if_pos h4, List.cons_append,
      List.cons_append, List.nil_append, parseString, if_neg hbs, if_pos rfl, parseEscape,
      if_neg (by decide), if_neg (by decide), if_neg (by decide), if_neg (by decide),
      if_pos rfl, hc]
  by_cases h5 : c.toNat = 10
  · have hc : ('\n' : Char) = c := by
      rw [show ('\n' : Char) = Char.ofNat 10 from rfl, ← h5, ofNat_toNat_self]
    rw [escapeChar, if_neg h1, if_neg h2, if_neg h3, if_neg h4, if_pos h5, List.cons_append,
      List.cons_append, List.nil_append, parseString, if_neg hbs, if_pos rfl, parseEscape,
      if_neg (by decide), if_neg (by decide), if_neg (by decide), if_neg (by decide),
      if_neg (by decide), if_pos rfl, hc]
  by_cases h6 : c.toNat = 13
  · have hc : Char.ofNat 13 = c := by rw [← h6, ofNat_toNat_self]
    rw [escapeChar, if_neg h1, if_neg h2, if_neg h3, if_neg h4, if_neg h5, if_pos h6,
      List.cons_append, List.cons_append, List.nil_append, parseString, if_neg hbs,
      if_pos rfl, parseEscape, if_neg (by decide), if_neg (by decide), if_neg (by decide),
      if_neg (by decide), if_neg (by decide), if_neg (by decide), if_pos rfl, hc]
  by_cases h7 : c.toNat = 9
  · have hc : ('\t' : Char) = c := by
      rw [show ('\t' : Char) = Char.ofNat 9 from rfl, ← h7, ofNat_toNat_self]
    rw [escapeChar, if_neg h1, if_neg h2, if_neg h3, if_neg h4, if_neg h5, if_neg h6,
      if_pos h7, List.cons_append, List.cons_append, List.nil_append, parseString,
      if_neg hbs, if_pos rfl, parseEscape, if_neg (by decide), if_neg (by decide),
      if_neg (by decide), if_neg (by decide), if_neg (by decide), if_neg (by decide),
      if_neg (by decide), if_pos rfl, hc]
  by_cases h8 : 32 ≤ c.toNat ∧ c.toNat ≤ 126
  · rw [escapeChar, if_neg h1, if_neg h2, if_neg h3, if_neg h4, if_neg h5, if_neg h6,
      if_neg h7, if_pos h8, List.singleton_append, parseString_cons_plain h1 h2]
  by_cases h9 : c.toNat < 65536
  · rw [escapeChar, if_neg h1, if_neg h2, if_neg h3, if_neg h4, if_neg h5, if_neg h6,
      if_neg h7, if_neg h8, if_pos h9, hex4]
    simp only [List.cons_append, List.nil_append]
    rw [parseString, if_neg hbs, if_pos rfl, parseEscape, if_neg (by decide),
      if_neg (by decide), if_neg (by decide), if_neg (by decide), if_neg (by decide),
      if_neg (by decide), if_neg (by decide), if_neg (by decide), if_pos rfl, parseU]
    simp only [hex4Val_hex4 h9]
    rw [if_pos (valid_out_of_surrogates c), ofNat_toNat_self]
  · rw [escapeChar, if_neg h1, if_neg h2, if_neg h3, if_neg h4, if_neg h5, if_neg h6,
      if_neg h7, if_neg h8, if_neg h9, hex4, hex4]
    have hlt := char_valid_cases c
    have hn1lt : 55296 + (c.toNat - 65536) / 1024 < 65536 := by omega
    have hn2lt : 56320 + (c.toNat - 65536) % 1024 < 65536 := by
      have := Nat.mod_lt (c.toNat - 65536) (show 0 < 1024 by omega)
      omega
    simp only [List.cons_append, List.nil_append, List.append_assoc]
    rw [parseString, if_neg hbs, if_pos rfl, parseEscape, if_neg (by decide),
      if_neg (by decide), if_neg (by decide), if_neg (by decide), if_neg (by decide),
      if_neg (by decide), if_neg (by decide), if_neg (by decide), if_pos rfl, parseU]
    simp only [hex4Val_hex4 hn1lt]
    rw [if_neg (by omega), if_pos (by omega), parseLowSurrogate, if_pos rfl, if_pos rfl]
    simp only [hex4Val_hex4 hn2lt]
    have hmod := Nat.mod_lt (c.toNat - 65536) (show 0 < 1024 by omega)
    rw [if_pos (by omega)]
    rw [show 65536 + (55296 + (c.toNat - 65536) / 1024 - 55296) * 1024 +
        (56320 + (c.toNat - 65536) % 1024 - 56320) = c.toNat by
      have := Nat.div_add_mod (c.toNat - 65536) 1024
      omega]
    rw [ofNat_toNat_self]

theorem parseString_escapeString (s r : List Char) :
    parseString (escapeString s ++ '"' :: r) = some (s, r) := by
  induction s with
  | nil => rw [escapeString, List.nil_append, parseString, if_pos rfl]
  | cons c cs ih =>
    rw [escapeString, List.append_assoc, parseString_escapeChar, ih]
    rfl

theorem starterChar_of_digit {c : Char} (h : isDigitChar c = true) :
    starterChar c = true := by
  simp [starterChar, h]

theorem dumps_starter (v : Value) :
    ∃ c l, dumps v = c :: l ∧ starterChar c = true := by
  cases v with
  | null => exact ⟨'n', _, rfl, by decide⟩
  | bool b => cases b with
    | true => exact ⟨'t', _, rfl, by decide⟩
    | false => exact ⟨'f', _, rfl, by decide⟩
  | num n =>
    cases n with
    | ofNat m =>
      rcases hd : natDigits m with _ | ⟨d, ds⟩
      · exact absurd hd (natDigits_ne_nil m)
      · refine ⟨d, ds, ?_, ?_⟩
        · rw [show dumps (.num (.ofNat m)) = natDigits m from rfl, hd]
        · exact starterChar_of_digit (natDigits_all_digits m d (by rw [hd]; simp))
    | negSucc m => exact ⟨'-', _, rfl, by decide⟩
  | str s => exact ⟨'"', _, rfl, by decide⟩
  | arr xs => exact ⟨'[', _, rfl, by decide⟩
  | obj fs => exact ⟨Char.ofNat 123, _, rfl, by decide⟩

theorem skipWs_dumps (x : Value) (r : List Char) :
    skipWs (dumps x ++ r) = dumps x ++ r := by
  obtain ⟨c, l, hd, hst⟩ := dumps_starter x
  rw [hd, List.cons_append, skipWs_starter hst]

theorem dumps_head_ne_rbracket (x : Value) (r : List Char) :
    ∃ c l, dumps x ++ r = c :: l ∧ ¬c = ']' ∧ starterChar c = true := by
  obtain ⟨c, l, hd, hst⟩ := dumps_starter x
  exact ⟨c, l ++ r, by rw [hd, List.cons_append], (starter_facts hst).2.1, hst⟩

theorem numBoundary_sep (t : List Value) (r : List Char) :
    numBoundary (dumpsListSep t ++ ']' :: r) = true := by
  cases t with
  | nil => rw [dumpsListSep, List.nil_append, numBoundary]; decide
  | cons x t =>
    rw [dumpsListSep, List.cons_append, numBoundary]
    decide

theorem numBoundary_fsep (t : List (List Char × Value)) (r : List Char) :
    numBoundary (dumpsFieldsSep t ++ Char.ofNat 125 :: r) = true := by
  cases t with
  | nil => rw [dumpsFieldsSep, List.nil_append, numBoundary]; decide
  | cons f t =>
    obtain ⟨k, v⟩ := f
    rw [dumpsFieldsSep, List.cons_append, numBoundary]
    decide

theorem skipWs_sep (t : List Value) (r : List Char) :
    skipWs (dumpsListSep t ++ ']' :: r) = dumpsListSep t ++ ']' :: r := by
  cases t with
  | nil => rw [dumpsListSep, List.nil_append, skipWs_not_ws (by decide)]
  | cons x t =>
    rw [dumpsListSep, List.cons_append, List.cons_append, skipWs_not_ws (by decide)]

theorem skipWs_fsep (t : List (List Char × Value)) (r : List Char) :
    skipWs (dumpsFieldsSep t ++ Char.ofNat 125 :: r) =
      dumpsFieldsSep t ++ Char.ofNat 125 :: r := by
  cases t with
  | nil => rw [dumpsFieldsSep, List.nil_append, skipWs_not_ws (by decide)]
  | cons f t =>
    obtain ⟨k, v⟩ := f
    rw [dumpsFieldsSep, List.cons_append, List.cons_append, skipWs_not_ws (by decide)]

theorem parseValue_dumps_null (fuel : Nat) (rest : List Char) (hf : 1 ≤ fuel) :
    parseValue fuel (dumps .null ++ rest) = some (.null, rest) := by
  obtain ⟨g, rfl⟩ : ∃ g, fuel = g + 1 := ⟨fuel - 1, by omega⟩
  rw [show dumps .null ++ rest = 'n' :: (['u', 'l', 'l'] ++ rest) from rfl,
    parseValue, if_pos rfl, expectLit_matched]

theorem parseValue_dumps_bool (b : Bool) (fuel : Nat) (rest : List Char) (hf : 1 ≤ fuel) :
    parseValue fuel (dumps (.bool b) ++ rest) = some (.bool b, rest) := by
  obtain ⟨g, rfl⟩ : ∃ g, fuel = g + 1 := ⟨fuel - 1, by omega⟩
  cases b with
  | true =>
    rw [show dumps (.bool true) ++ rest = 't' :: (['r', 'u', 'e'] ++ rest) from rfl,
      parseValue, if_neg (by decide), if_pos rfl, expectLit_matched]
  | false =>
    rw [show dumps (.bool false) ++ rest = 'f' :: (['a', 'l', 's', 'e'] ++ rest) from rfl,
      parseValue, if_neg (by decide), if_neg (by decide), if_pos rfl, expectLit_matched]

theorem parseValue_dumps_num (n : Int) (fuel : Nat) (rest : List Char) (hf : 1 ≤ fuel)
    (hb : numBoundary rest = true) :
    parseValue fuel (dumps (.num n) ++ rest) = some (.num n, rest) := by
  obtain ⟨g, rfl⟩ : ∃ g, fuel = g + 1 := ⟨fuel - 1, by omega⟩
  cases n with
  | ofNat m =>
    rcases hd : natDigits m with _ | ⟨d, ds⟩
    · exact absurd hd (natDigits_ne_nil m)
    have hdd : isDigitChar d = true := natDigits_all_digits m d (by rw [hd]; simp)
    have hds : ∀ c ∈ ds, isDigitChar c = true := fun c hc =>
      natDigits_all_digits m c (by rw [hd]; simp [hc])
    obtain ⟨h1, h2, h3, h4, h5, h6, h7⟩ := digit_not_special hdd
    rw [show dumps (.num (Int.ofNat m)) = natDigits m from rfl, hd, List.cons_append,
      parseValue, if_neg h1, if_neg h2, if_neg h3, if_neg h4, if_neg h5, if_neg h6,
      if_neg h7, if_pos hdd, takeDigits_of_digits ds rest hds hb]
    show some ((Value.num (digitsToNat (d :: ds)) : Value), rest)
      = some ((Value.num (Int.ofNat m) : Value), rest)
    rw [show d :: ds = natDigits m from hd.symm, digitsToNat_natDigits]
    rfl
  | negSucc m =>
    rcases hd : natDigits (m + 1) with _ | ⟨d, ds⟩
    · exact absurd hd (natDigits_ne_nil (m + 1))
    have hds : ∀ c ∈ natDigits (m + 1), isDigitChar c = true := natDigits_all_digits (m + 1)
    rw [show dumps (.num (Int.negSucc m)) = '-' :: natDigits (m + 1) from rfl,
      List.cons_append, parseValue, if_neg (by decide), if_neg (by decide),
      if_neg (by decide), if_neg (by decide), if_neg (by decide), if_neg (by decide),
      if_pos rfl, takeDigits_of_digits _ rest hds hb, hd]
    show some ((Value.num (-(digitsToNat (d :: ds) : Int)) : Value), rest)
      = some ((Value.num (Int.negSucc m) : Value), rest)
    rw [show d :: ds = natDigits (m + 1) from hd.symm, digitsToNat_natDigits]
    have : (-((m + 1 : Nat) : Int)) = Int.negSucc m := by
      rw [Int.negSucc_eq]
      simp
    rw [this]

theorem parseValue_dumps_str (s : List Char) (fuel : Nat) (rest : List Char) (hf : 1 ≤ fuel) :
    parseValue fuel (dumps (.str s) ++ rest) = some (.str s, rest) := by
  obtain ⟨g, rfl⟩ : ∃ g, fuel = g + 1 := ⟨fuel - 1, by omega⟩
  rw [show dumps (.str s) = '"' :: (escapeString s ++ ['"']) from rfl, List.cons_append,
    parseValue, if_neg (by decide), if_neg (by decide), if_neg (by decide), if_pos rfl]
  rw [List.append_assoc, List.singleton_append, parseString_escapeString]
  rfl

theorem parses_all : ∀ n, ParsesVal n ∧ ParsesElems n ∧ ParsesMembers n := by
  intro n
  induction n using Nat.strong_induction_on with
  | _ n ih =>
    refine ⟨?_, ?_, ?_⟩
    · intro v hs fuel rest hf hb
      cases v with
      | null => exact parseValue_dumps_null fuel rest (by rw [needV] at hf; omega)
      | bool b => exact parseValue_dumps_bool b fuel rest (by rw [needV] at hf; omega)
      | num m => exact parseValue_dumps_num m fuel rest (by rw [needV] at hf; omega) hb
      | str s => exact parseValue_dumps_str s fuel rest (by rw [needV] at hf; omega)
      | arr xs =>
        rw [Value.arr.sizeOf_spec] at hs
        rw [needV] at hf
        obtain ⟨g, rfl⟩ : ∃ g, fuel = g + 1 := ⟨fuel - 1, by omega⟩
        have hneed : needList xs ≤ g := by omega
        rw [show dumps (.arr xs) ++ rest = '[' :: (dumpsList xs ++ (']' :: rest)) from by
          rw [show dumps (.arr xs) = '[' :: (dumpsList xs ++ [']']) from rfl,
            List.cons_append, List.append_assoc, List.singleton_append]]
        rw [parseValue, if_neg (by decide), if_neg (by decide), if_neg (by decide),
          if_neg (by decide), if_pos rfl]
        cases xs with
        | nil =>
          rw [show dumpsList ([] : List Value) = [] from rfl, List.nil_append,
            skipWs_not_ws (by decide)]
          obtain ⟨g2, rfl⟩ : ∃ g2, g = g2 + 1 :=
            ⟨g - 1, by rw [needList] at hneed; omega⟩
          rw [parseArray, if_pos rfl]
        | cons x t =>
          rw [needList] at hneed
          obtain ⟨g2, rfl⟩ : ∃ g2, g = g2 + 1 := ⟨g - 1, by omega⟩
          have hx : needV x ≤ g2 := by omega
          have ht : needList t ≤ g2 := by omega
          rw [List.cons.sizeOf_spec] at hs
          have hn1 : n - 1 < n := by omega
          obtain ⟨hV, hL, _⟩ := ih (n - 1) hn1
          rw [show dumpsList (x :: t) = dumps x ++ dumpsListSep t from rfl,
            List.append_assoc, skipWs_dumps]
          have ihx := hV x (by omega) g2 (dumpsListSep t ++ ']' :: rest) hx
            (numBoundary_sep t rest)
          have ihl := hL t (by omega) g2 rest ht
          obtain ⟨c0, l0, hd0, hst0⟩ := dumps_starter x
          rw [hd0, List.cons_append] at ihx ⊢
          rw [parseArray, if_neg (starter_facts hst0).2.1]
          simp only [ihx]
          rw [skipWs_sep]
          simp only [ihl]
      | obj fs =>
        rw [Value.obj.sizeOf_spec] at hs
        rw [needV] at hf
        obtain ⟨g, rfl⟩ : ∃ g, fuel = g + 1 := ⟨fuel - 1, by omega⟩
        have hneed : needFields fs ≤ g := by omega
        rw [show dumps (.obj fs) ++ rest
            = Char.ofNat 123 :: (dumpsFields fs ++ (Char.ofNat 125 :: rest)) from by
          rw [show dumps (.obj fs)
              = Char.ofNat 123 :: (dumpsFields fs ++ [Char.ofNat 125]) from rfl,
            List.cons_append, List.append_assoc, List.singleton_append]]
        rw [parseValue, if_neg (by decide), if_neg (by decide), if_neg (by decide),
          if_neg (by decide), if_neg (by decide), if_pos rfl]
        cases fs with
        | nil =>
          rw [show dumpsFields ([] : List (List Char × Value)) = [] from rfl,
            List.nil_append, skipWs_not_ws (by decide)]
          obtain ⟨g2, rfl⟩ : ∃ g2, g = g2 + 1 :=
            ⟨g - 1, by rw [needFields] at hneed; omega⟩
          rw [parseObject, if_pos rfl]
        | cons f t =>
          obtain ⟨k, v0⟩ := f
          rw [needFields] at hneed
          obtain ⟨g2, rfl⟩ : ∃ g2, g = g2 + 1 := ⟨g - 1, by omega⟩
          have hx : needV v0 ≤ g2 := by omega
          have ht : needFields t ≤ g2 := by omega
          rw [List.cons.sizeOf_spec, Prod.mk.sizeOf_spec] at hs
          have hn1 : n - 1 < n := by omega
          obtain ⟨hV, _, hM⟩ := ih (n - 1) hn1
          have ihv := hV v0 (by omega) g2 (dumpsFieldsSep t ++ Char.ofNat 125 :: rest) hx
            (numBoundary_fsep t rest)
          have ihm := hM t (by omega) g2 rest ht
          rw [show dumpsFields ((k, v0) :: t)
              = ('"' :: (escapeString k ++ '"' :: ':' :: ' ' :: dumps v0)) ++ dumpsFieldsSep t
              from rfl]
          simp only [List.cons_append, List.append_assoc]
          rw [skipWs_not_ws (by decide), parseObject, if_neg (by decide), if_pos rfl]
          rw [show '"' :: (':' :: (' ' :: (dumps v0 ++ (dumpsFieldsSep t
                ++ Char.ofNat 125 :: rest))))
              = '"' :: ':' :: ' ' :: (dumps v0 ++ (dumpsFieldsSep t
                ++ Char.ofNat 125 :: rest)) from rfl]
          rw [parseString_escapeString]
          simp only []
          rw [skipWs_not_ws (by decide)]
          simp only []
          rw [skipWs, if_pos (by decide), skipWs_dumps]
          simp only [ihv]
          rw [skipWs_fsep]
          simp only [ihm]
    · intro xs hs fuel rest hf
      cases xs with
      | nil =>
        obtain ⟨g, rfl⟩ : ∃ g, fuel = g + 1 := ⟨fuel - 1, by rw [needList] at hf; omega⟩
        rw [show dumpsListSep ([] : List Value) = [] from rfl, List.nil_append,
          parseElems, if_pos rfl]
      | cons x t =>
        rw [needList] at hf
        obtain ⟨g, rfl⟩ : ∃ g, fuel = g + 1 := ⟨fuel - 1, by omega⟩
        have hx : needV x ≤ g := by omega
        have ht : needList t ≤ g := by omega
        rw [List.cons.sizeOf_spec] at hs
        have hn1 : n - 1 < n := by omega
        obtain ⟨hV, hL, _⟩ := ih (n - 1) hn1
        have ihx := hV x (by omega) g (dumpsListSep t ++ ']' :: rest) hx
          (numBoundary_sep t rest)
        have ihl := hL t (by omega) g rest ht
        rw [show dumpsListSep (x :: t) = ',' :: ' ' :: (dumps x ++ dumpsListSep t) from rfl,
          List.cons_append, List.cons_append, parseElems, if_neg (by decide), if_pos rfl,
          skipWs, if_pos (by decide), List.append_assoc, skipWs_dumps]
        simp only [ihx]
        rw [skipWs_sep]
        simp only [ihl]
    · intro fs hs fuel rest hf
      cases fs with
      | nil =>
        obtain ⟨g, rfl⟩ : ∃ g, fuel = g + 1 := ⟨fuel - 1, by rw [needFields] at hf; omega⟩
        rw [show dumpsFieldsSep ([] : List (List Char × Value)) = [] from rfl,
          List.nil_append, parseMembers, if_pos rfl]
      | cons f t =>
        obtain ⟨k, v0⟩ := f
        rw [needFields] at hf
        obtain ⟨g, rfl⟩ : ∃ g, fuel = g + 1 := ⟨fuel - 1, by omega⟩
        have hx : needV v0 ≤ g := by omega
        have ht : needFields t ≤ g := by omega
        rw [List.cons.sizeOf_spec, Prod.mk.sizeOf_spec] at hs
        have hn1 : n - 1 < n := by omega
        obtain ⟨hV, _, hM⟩ := ih (n - 1) hn1
        have ihv := hV v0 (by omega) g (dumpsFieldsSep t ++ Char.ofNat 125 :: rest) hx
          (numBoundary_fsep t rest)
        have ihm := hM t (by omega) g rest ht
        rw [show dumpsFieldsSep ((k, v0) :: t)
            = ',' :: ' ' :: (('"' :: (escapeString k ++ '"' :: ':' :: ' ' :: dumps v0))
              ++ dumpsFieldsSep t) from rfl]
        simp only [List.cons_append, List.append_assoc]
        rw [parseMembers, if_neg (by decide), if_pos rfl, skipWs, if_pos (by decide),
          skipWs_not_ws (by decide)]
        simp only []
        rw [if_pos trivial, parseString_escapeString]
        simp only []
        rw [skipWs_not_ws (by decide)]
        simp only []
        rw [skipWs, if_pos (by decide), skipWs_dumps]
        simp only [ihv]
        rw [skipWs_fsep]
        simp only [ihm]

theorem need_le : ∀ n : Nat,
    (∀ v : Value, sizeOf v ≤ n → needV v ≤ (dumps v).length + 1) ∧
    (∀ xs : List Value, sizeOf xs ≤ n → needList xs ≤ (dumpsListSep xs).length + 1) ∧
    (∀ fs : List (List Char × Value), sizeOf fs ≤ n →
      needFields fs ≤ (dumpsFieldsSep fs).length + 1) := by
  intro n
  induction n using Nat.strong_induction_on with
  | _ n ih =>
    refine ⟨?_, ?_, ?_⟩
    · intro v hs
      cases v with
      | null => rw [needV]; omega
      | bool b => rw [needV]; omega
      | num m => rw [needV]; omega
      | str s => rw [needV]; omega
      | arr xs =>
        rw [Value.arr.sizeOf_spec] at hs
        rw [needV]
        cases xs with
        | nil =>
          rw [needList]
          rw [show (dumps (.arr ([] : List Value))).length = 2 from rfl]
          omega
        | cons x t =>
          rw [List.cons.sizeOf_spec] at hs
          obtain ⟨hV, hL, _⟩ := ih (n - 1) (by omega)
          have h1 := hV x (by omega)
          have h2 := hL t (by omega)
          rw [needList]
          rw [show dumps (.arr (x :: t)) = '[' :: (dumpsList (x :: t) ++ [']']) from rfl,
            show dumpsList (x :: t) = dumps x ++ dumpsListSep t from rfl, List.length_cons,
            List.length_append, List.length_append]
          simp only [List.length_singleton]
          omega
      | obj fs =>
        rw [Value.obj.sizeOf_spec] at hs
        rw [needV]
        cases fs with
        | nil =>
          rw [needFields]
          rw [show (dumps (.obj ([] : List (List Char × Value)))).length = 2 from rfl]
          omega
        | cons f t =>
          obtain ⟨k, v0⟩ := f
          rw [List.cons.sizeOf_spec, Prod.mk.sizeOf_spec] at hs
          obtain ⟨hV, _, hM⟩ := ih (n - 1) (by omega)
          have h1 := hV v0 (by omega)
          have h2 := hM t (by omega)
          rw [needFields]
          rw [show dumps (.obj ((k, v0) :: t))
              = Char.ofNat 123 :: (dumpsFields ((k, v0) :: t) ++ [Char.ofNat 125]) from rfl,
            show dumpsFields ((k, v0) :: t)
              = ('"' :: (escapeString k ++ '"' :: ':' :: ' ' :: dumps v0)) ++ dumpsFieldsSep t
              from rfl, List.length_cons, List.length_append, List.length_append,
            List.length_cons, List.length_append, List.length_cons, List.length_cons,
            List.length_cons]
          simp only [List.length_singleton]
          omega
    · intro xs hs
      cases xs with
      | nil =>
        rw [needList]
        omega
      | cons x t =>
        rw [List.cons.sizeOf_spec] at hs
        obtain ⟨hV, hL, _⟩ := ih (n - 1) (by omega)
        have h1 := hV x (by omega)
        have h2 := hL t (by omega)
        rw [needList, show dumpsListSep (x :: t) = ',' :: ' ' :: (dumps x ++ dumpsListSep t)
          from rfl, List.length_cons, List.length_cons, List.length_append]
        omega
    · intro fs hs
      cases fs with
      | nil =>
        rw [needFields]
        omega
      | cons f t =>
        obtain ⟨k, v0⟩ := f
        rw [List.cons.sizeOf_spec, Prod.mk.sizeOf_spec] at hs
        obtain ⟨hV, _, hM⟩ := ih (n - 1) (by omega)
        have h1 := hV v0 (by omega)
        have h2 := hM t (by omega)
        rw [needFields, show dumpsFieldsSep ((k, v0) :: t)
            = ',' :: ' ' :: (('"' :: (escapeString k ++ '"' :: ':' :: ' ' :: dumps v0))
              ++ dumpsFieldsSep t) from rfl, List.length_cons, List.length_cons,
          List.length_append, List.length_cons, List.length_append, List.length_cons,
          List.length_cons, List.length_cons]
        omega

/-- `json.loads` inverts `json.dumps` on every modelled value. -/
theorem loads_dumps (v : Value) : loads (dumps v) = some v := by
  have hmain := (parses_all (sizeOf v)).1 v le_rfl ((dumps v).length + 1) []
    ((need_le (sizeOf v)).1 v le_rfl) rfl
  rw [List.append_nil] at hmain
  rw [loads, show skipWs (dumps v) = dumps v from by
    obtain ⟨c, l, hd, hst⟩ := dumps_starter v
    rw [hd, skipWs_starter hst]]
  rw [hmain]
  show (if skipWs [] = [] then some v else none) = some v
  rw [if_pos (show skipWs [] = [] from rfl)]

theorem hexDigit_ascii {d : Nat} (h : d < 16) : (hexDigit d).toNat < 128 := by
  have := hexDigit_toNat h
  split at this <;> omega

theorem uescape_ascii (n : Nat) : ∀ x ∈ '\\' :: 'u' :: hex4 n, x.toNat < 128 := by
  intro x hx
  rw [hex4] at hx
  cases hx with
  | head => decide
  | tail _ h1 => cases h1 with
    | head => decide
    | tail _ h2 => cases h2 with
      | head => exact hexDigit_ascii (Nat.mod_lt _ (by omega))
      | tail _ h3 => cases h3 with
        | head => exact hexDigit_ascii (Nat.mod_lt _ (by omega))
        | tail _ h4 => cases h4 with
          | head => exact hexDigit_ascii (Nat.mod_lt _ (by omega))
          | tail _ h5 => cases h5 with
            | head => exact hexDigit_ascii (Nat.mod_lt _ (by omega))
            | tail _ h6 => cases h6

theorem escapeChar_ascii (c : Char) : ∀ x ∈ escapeChar c, x.toNat < 128 := by
  intro x hx
  by_cases h1 : c = '"'
  · rw [escapeChar, if_pos h1] at hx
    simp only [List.mem_cons, List.not_mem_nil, or_false] at hx
    rcases hx with h | h <;> (subst h; decide)
  by_cases h2 : c = '\\'
  · rw [escapeChar, if_neg h1, if_pos h2] at hx
    simp only [List.mem_cons, List.not_mem_nil, or_false] at hx
    rcases hx with h | h <;> (subst h; decide)
  by_cases h3 : c.toNat = 8
  · rw [escapeChar, if_neg h1, if_neg h2, if_pos h3] at hx
    simp only [List.mem_cons, List.not_mem_nil, or_false] at hx
    rcases hx with h | h <;> (subst h; decide)
  by_cases h4 : c.toNat = 12
  · rw [escapeChar, if_neg h1, if_neg h2, if_neg h3, if_pos h4] at hx
    simp only [List.mem_cons, List.not_mem_nil, or_false] at hx
    rcases hx with h | h <;> (subst h; decide)
  by_cases h5 : c.toNat = 10
  · rw [escapeChar, if_neg h1, if_neg h2, if_neg h3, if_neg h4, if_pos h5] at hx
    simp only [List.mem_cons, List.not_mem_nil, or_false] at hx
    rcases hx with h | h <;> (subst h; decide)
  by_cases h6 : c.toNat = 13
  · rw [escapeChar, if_neg h1, if_neg h2, if_neg h3, if_neg h4, if_neg h5, if_pos h6] at hx
    simp only [List.mem_cons, List.not_mem_nil, or_false] at hx
    rcases hx with h | h <;> (subst h; decide)
  by_cases h7 : c.toNat = 9
  · rw [escapeChar, if_neg h1, if_neg h2, if_neg h3, if_neg h4, if_neg h5, if_neg h6,
      if_pos h7] at hx
    simp only [List.mem_cons, List.not_mem_nil, or_false] at hx
    rcases hx with h | h <;> (subst h; decide)
  by_cases h8 : 32 ≤ c.toNat ∧ c.toNat ≤ 126
  · rw [escapeChar, if_neg h1, if_neg h2, if_neg h3, if_neg h4, if_neg h5, if_neg h6,
      if_neg h7, if_pos h8] at hx
    rw [List.mem_singleton] at hx
    subst hx
    omega
  by_cases h9 : c.toNat < 65536
  · rw [escapeChar, if_neg h1, if_neg h2, if_neg h3, if_neg h4, if_neg h5, if_neg h6,
      if_neg h7, if_neg h8, if_pos h9] at hx
    exact uescape_ascii c.toNat x hx
  · rw [escapeChar, if_neg h1, if_neg h2, if_neg h3, if_neg h4, if_neg h5, if_neg h6,
      if_neg h7, if_neg h8, if_neg h9, List.mem_append] at hx
    rcases hx with h | h
    · exact uescape_ascii _ x h
    · exact uescape_ascii _ x h

theorem escapeString_ascii (s : List Char) : ∀ x ∈ escapeString s, x.toNat < 128 := by
  induction s with
  | nil => intro x hx; cases hx
  | cons c cs ih =>
    intro x hx
    rw [escapeString, List.mem_append] at hx
    rcases hx with h | h
    · exact escapeChar_ascii c x h
    · exact ih x h

theorem natDigits_ascii (n : Nat) : ∀ x ∈ natDigits n, x.toNat < 128 := by
  intro x hx
  have := isDigitChar_toNat (natDigits_all_digits n x hx)
  omega

theorem dumps_ascii : ∀ n : Nat,
    (∀ v : Value, sizeOf v ≤ n → ∀ x ∈ dumps v, x.toNat < 128) ∧
    (∀ xs : List Value, sizeOf xs ≤ n → ∀ x ∈ dumpsListSep xs, x.toNat < 128) ∧
    (∀ fs : List (List Char × Value), sizeOf fs ≤ n →
      ∀ x ∈ dumpsFieldsSep fs, x.toNat < 128) := by
  intro n
  induction n using Nat.strong_induction_on with
  | _ n ih =>
    refine ⟨?_, ?_, ?_⟩
    · intro v hs x hx
      cases v with
      | null =>
        rw [show dumps .null = ['n', 'u', 'l', 'l'] from rfl] at hx
        simp only [List.mem_cons, List.not_mem_nil, or_false] at hx
        rcases hx with h | h | h | h <;> (subst h; decide)
      | bool b =>
        cases b with
        | true =>
          rw [show dumps (.bool true) = ['t', 'r', 'u', 'e'] from rfl] at hx
          simp only [List.mem_cons, List.not_mem_nil, or_false] at hx
          rcases hx with h | h | h | h <;> (subst h; decide)
        | false =>
          rw [show dumps (.bool false) = ['f', 'a', 'l', 's', 'e'] from rfl] at hx
          simp only [List.mem_cons, List.not_mem_nil, or_false] at hx
          rcases hx with h | h | h | h | h <;> (subst h; decide)
      | num m =>
        cases m with
        | ofNat k =>
          exact natDigits_ascii k x (by
            rwa [show dumps (.num (Int.ofNat k)) = natDigits k from rfl] at hx)
        | negSucc k =>
          rw [show dumps (.num (Int.negSucc k)) = '-' :: natDigits (k + 1) from rfl,
            List.mem_cons] at hx
          rcases hx with h | h
          · subst h; decide
          · exact natDigits_ascii (k + 1) x h
      | str s =>
        rw [show dumps (.str s) = '"' :: (escapeString s ++ ['"']) from rfl,
          List.mem_cons, List.mem_append] at hx
        rcases hx with h | h | h
        · subst h; decide
        · exact escapeString_ascii s x h
        · rw [List.mem_singleton] at h; subst h; decide
      | arr xs =>
        rw [Value.arr.sizeOf_spec] at hs
        rw [show dumps (.arr xs) = '[' :: (dumpsList xs ++ [']']) from rfl,
          List.mem_cons, List.mem_append] at hx
        rcases hx with h | h | h
        · subst h; decide
        · cases xs with
          | nil => cases h
          | cons y t =>
            rw [List.cons.sizeOf_spec] at hs
            obtain ⟨hV, hL, _⟩ := ih (n - 1) (by omega)
            rw [show dumpsList (y :: t) = dumps y ++ dumpsListSep t from rfl,
              List.mem_append] at h
            rcases h with h | h
            · exact hV y (by omega) x h
            · exact hL t (by omega) x h
        · rw [List.mem_singleton] at h; subst h; decide
      | obj fs =>
        rw [Value.obj.sizeOf_spec] at hs
        rw [show dumps (.obj fs)
            = Char.ofNat 123 :: (dumpsFields fs ++ [Char.ofNat 125]) from rfl,
          List.mem_cons, List.mem_append] at hx
        rcases hx with h | h | h
        · subst h; decide
        · cases fs with
          | nil => cases h
          | cons f t =>
            obtain ⟨k, v0⟩ := f
            rw [List.cons.sizeOf_spec, Prod.mk.sizeOf_spec] at hs
            obtain ⟨hV, _, hM⟩ := ih (n - 1) (by omega)
            rw [show dumpsFields ((k, v0) :: t)
                = ('"' :: (escapeString k ++ '"' :: ':' :: ' ' :: dumps v0))
                  ++ dumpsFieldsSep t from rfl, List.mem_append, List.mem_cons,
              List.mem_append, List.mem_cons, List.mem_cons, List.mem_cons] at h
            rcases h with (h | h | h | h | h | h) | h
            · subst h; decide
            · exact escapeString_ascii k x h
            · subst h; decide
            · subst h; decide
            · subst h; decide
            · exact hV v0 (by omega) x h
            · exact hM t (by omega) x h
        · rw [List.mem_singleton] at h; subst h; decide
    · intro xs hs x hx
      cases xs with
      | nil => cases hx
      | cons y t =>
        rw [List.cons.sizeOf_spec] at hs
        obtain ⟨hV, hL, _⟩ := ih (n - 1) (by omega)
        rw [show dumpsListSep (y :: t) = ',' :: ' ' :: (dumps y ++ dumpsListSep t) from rfl,
          List.mem_cons, List.mem_cons, List.mem_append] at hx
        rcases hx with h | h | h | h
        · subst h; decide
        · subst h; decide
        · exact hV y (by omega) x h
        · exact hL t (by omega) x h
    · intro fs hs x hx
      cases fs with
      | nil => cases hx
      | cons f t =>
        obtain ⟨k, v0⟩ := f
        rw [List.cons.sizeOf_spec, Prod.mk.sizeOf_spec] at hs
        obtain ⟨hV, _, hM⟩ := ih (n - 1) (by omega)
        rw [show dumpsFieldsSep ((k, v0) :: t)
            = ',' :: ' ' :: (('"' :: (escapeString k ++ '"' :: ':' :: ' ' :: dumps v0))
              ++ dumpsFieldsSep t) from rfl, List.mem_cons, List.mem_cons, List.mem_append,
          List.mem_cons, List.mem_append, List.mem_cons, List.mem_cons, List.mem_cons] at hx
        rcases hx with h | h | (h | h | h | h | h | h) | h
        · subst h; decide
        · subst h; decide
        · subst h; decide
        · exact escapeString_ascii k x h
        · subst h; decide
        · subst h; decide
        · subst h; decide
        · exact hV v0 (by omega) x h
        · exact hM t (by omega) x h

theorem utf8EncodeChar_ascii {c : Char} (h : c.toNat < 128) : utf8EncodeChar c = [c.toNat] := by
  rw [utf8EncodeChar]
  simp only [if_pos h]

theorem utf8_roundtrip_ascii (s : List Char) (h : ∀ c ∈ s, c.toNat < 128) :
    utf8Decode (utf8Encode s) = some s := by
  induction s with
  | nil =>
    rw [show utf8Encode [] = [] from rfl, utf8Decode]
  | cons c cs ih =>
    rw [utf8Encode, utf8EncodeChar_ascii (h c (by simp)), List.singleton_append,
      utf8Decode, if_pos (h c (by simp)), ih (fun x hx => h x (by simp [hx])),
      ofNat_toNat_self]
    rfl

/-- C4: round-trip of JSON payloads — for every modelled JSON-serializable
value `v` (in particular the mappings `{"level": i}` for `i` in 1..10),
decoding the UTF-8 JSON encoding of `v` with the JSON decoder yields a
structured value equal to `v`. -/
theorem json_payload_roundtrip (v : Value) : jsonDecode (jsonEncode v) = some v := by
  rw [jsonDecode, jsonEncode,
    utf8_roundtrip_ascii (dumps v) ((dumps_ascii (sizeOf v)).1 v le_rfl)]
  exact loads_dumps v

end Json

namespace HttpJson

/-- C9: over HTTP status codes (below 600), `json_or_raise` returns the
parsed JSON body exactly when the status is below 400 and the body parses as
JSON; an unparsable body raises an HTTP error regardless of status (even
200); and a 4xx response whose JSON body carries an `"error"` key raises
with that server-supplied value as the response reason. -/
theorem json_or_raise_contract (r : Response) (hs : r.status_code < 600) :
    (∀ j, json_or_raise r = .ok j ↔ (r.status_code < 400 ∧ r.bodyJson = some j)) ∧
    (r.bodyJson = none → json_or_raise r = .badFormat) ∧
    (∀ fields msg, 400 ≤ r.status_code → r.status_code < 500 →
      r.bodyJson = some (.obj fields) → lookupField fields errorKey = some msg →
      json_or_raise r = .httpStatusError r.status_code msg) := by
  refine ⟨?_, ?_, ?_⟩
  · intro j
    rcases hbody : r.bodyJson with _ | j0
    · simp [json_or_raise, hbody]
    · by_cases h4 : 400 ≤ r.status_code ∧ r.status_code < 500
      · cases j0 with
        | obj fields =>
          simp only [json_or_raise, hbody, raise_for_status, if_pos h4]
          constructor
          · intro h; exact absurd h (by simp)
          · rintro ⟨h1, -⟩; omega
        | null =>
          simp only [json_or_raise, hbody, if_pos h4]
          constructor
          · intro h; exact absurd h (by simp)
          · rintro ⟨h1, -⟩; omega
        | bool b =>
          simp only [json_or_raise, hbody, if_pos h4]
          constructor
          · intro h; exact absurd h (by simp)
          · rintro ⟨h1, -⟩; omega
        | num n =>
          simp only [json_or_raise, hbody, if_pos h4]
          constructor
          · intro h; exact absurd h (by simp)
          · rintro ⟨h1, -⟩; omega
        | str s =>
          simp only [json_or_raise, hbody, if_pos h4]
          constructor
          · intro h; exact absurd h (by simp)
          · rintro ⟨h1, -⟩; omega
        | arr xs =>
          simp only [json_or_raise, hbody, if_pos h4]
          constructor
          · intro h; exact absurd h (by simp)
          · rintro ⟨h1, -⟩; omega
      · by_cases h5 : 500 ≤ r.status_code ∧ r.status_code < 600
        · simp only [json_or_raise, hbody, raise_for_status, if_neg h4, if_pos h5]
          constructor
          · intro h; exact absurd h (by simp)
          · rintro ⟨h1, -⟩; omega
        · simp only [json_or_raise, hbody, raise_for_status, if_neg h4, if_neg h5]
          simp only [Result.ok.injEq, Option.some.injEq]
          constructor
          · intro h; exact ⟨by omega, by rw [h]⟩
          · rintro ⟨-, h2⟩; rw [h2]
  · intro hb
    rw [json_or_raise, hb]
  · intro fields msg h400 h500 hbody hlook
    have h45 : 400 ≤ r.status_code ∧ r.status_code < 500 := ⟨h400, h500⟩
    simp only [json_or_raise, hbody, raise_for_status, if_pos h45, hlook,
      Option.getD_some]

theorem json_or_raise_contract_witness :
    (404 : Nat) < 600 ∧
    (json_or_raise ⟨404, some (.obj [(errorKey, .str ['n', 'o'])]), .str []⟩
      = .httpStatusError 404 (.str ['n', 'o'])) :=
  ⟨by omega,
   (json_or_raise_contract ⟨404, some (.obj [(errorKey, .str ['n', 'o'])]), .str []⟩
       (by decide)).2.2 [(errorKey, .str ['n', 'o'])] (.str ['n', 'o'])
     (by decide) (by decide) rfl rfl⟩

end HttpJson

namespace DataPlatform

theorem lookupD_none_iff (ds : List (List Char × Decoder)) (k : List Char) :
    lookupD ds k = none ↔ k ∉ ds.map Prod.fst := by
  induction ds with
  | nil => simp [lookupD]
  | cons d ds ih =>
    obtain ⟨k0, v0⟩ := d
    rw [lookupD]
    by_cases h : k0 = k
    · subst h
      rw [if_pos rfl]
      simp only [List.map_cons, List.mem_cons]
      constructor
      · intro hz
        exact absurd hz (by simp)
      · intro hn
        exact absurd (Or.inl trivial) hn
    · rw [if_neg h]
      simp only [List.map_cons, List.mem_cons, ih]
      constructor
      · intro hn
        rintro (he | hm)
        · exact h he.symm
        · exact hn hm
      · intro hn
        intro hm
        exact hn (Or.inr hm)

theorem get_messages_loop_invariant (a : Avail)
    (records : List (Schema × Channel × Message)) (st : LoopState)
    (hkeys : st.constructed = st.decoders.map Prod.fst) (hnodup : st.constructed.Nodup)
    (hok : ∀ k ∈ st.decoders.map Prod.fst, ∃ d, decoder_for_schema_encoding a k = .ok d) :
    (get_messages_loop a records st).1.constructed
        = (get_messages_loop a records st).1.decoders.map Prod.fst ∧
    (get_messages_loop a records st).1.constructed.Nodup ∧
    (∀ k ∈ (get_messages_loop a records st).1.decoders.map Prod.fst,
      ∃ d, decoder_for_schema_encoding a k = .ok d) := by
  induction records generalizing st with
  | nil => exact ⟨hkeys, hnodup, hok⟩
  | cons r rest ih =>
    obtain ⟨schema, channel, message⟩ := r
    rw [get_messages_loop]
    rcases hl : lookupD st.decoders schema.encoding with _ | dec
    · simp only [hl]
      have hmem : schema.encoding ∉ st.decoders.map Prod.fst :=
        (lookupD_none_iff _ _).mp hl
      have hnodup2 : (st.constructed ++ [schema.encoding]).Nodup := by
        rw [List.nodup_append]
        refine ⟨hnodup, by simp, ?_⟩
        intro x hx hy
        rw [List.mem_singleton] at hy
        subst hy
        rw [hkeys] at hx
        exact hmem hx
      rcases hc : decoder_for_schema_encoding a schema.encoding with e | dec2
      · simp only [hc]
        exact ⟨hkeys, hnodup, hok⟩
      · simp only [hc]
        have hok2 : ∀ k ∈ (st.decoders ++ [(schema.encoding, dec2)]).map Prod.fst,
            ∃ d, decoder_for_schema_encoding a k = .ok d := by
          intro k hk
          simp only [List.map_append, List.map_cons, List.map_nil,
            List.mem_append, List.mem_cons] at hk
          rcases hk with hk | hk | hk
          · exact hok k hk
          · subst hk
            exact ⟨dec2, hc⟩
          · cases hk
        have hkeys2 : st.constructed ++ [schema.encoding]
            = (st.decoders ++ [(schema.encoding, dec2)]).map Prod.fst := by
          simp [hkeys]
        rcases hd : Decoder.decode dec2 schema message with e | decd
        · simp only [hd]
          exact ⟨hkeys2, hnodup2, hok2⟩
        · simp only [hd]
          exact ih _ hkeys2 hnodup2 hok2
    · simp only [hl]
      rcases hd : Decoder.decode dec schema message with e | decd
      · simp only [hd]
        exact ⟨hkeys, hnodup, hok⟩
      · simp only [hd]
        exact ih _ hkeys hnodup hok

theorem countP_le_one_of_nodup {l : List (List Char)} (h : l.Nodup) (t : List Char) :
    l.countP (fun s => decide (s = t)) ≤ 1 := by
  induction l with
  | nil => simp
  | cons a l ih =>
    rw [List.nodup_cons] at h
    rw [List.countP_cons]
    by_cases ha : a = t
    · have hz : l.countP (fun s => decide (s = t)) = 0 := by
        rw [List.countP_eq_zero]
        intro b hb
        simp only [decide_eq_true_eq]
        intro hbt
        exact h.1 ((hbt.trans ha.symm) ▸ hb)
      rw [hz]
      simp [ha]
    · have hrec := ih h.2
      have hpa : (decide (a = t)) = false := by simp [ha]
      rw [hpa]
      simpa using hrec

/-- C2: during one call to `get_messages`, at most one decoder instance is
constructed per distinct encoding tag — the construction trace of the loop
never repeats an encoding (it lists exactly the keys of the decoder cache),
so the first message with a given tag constructs the decoder and every later
message with that tag reuses the cached instance, never a fresh one. -/
theorem decoder_constructed_once (a : Avail)
    (records : List (Schema × Channel × Message)) :
    (get_messages_loop a records ⟨[], [], []⟩).1.constructed.Nodup ∧
    (get_messages_loop a records ⟨[], [], []⟩).1.constructed
      = (get_messages_loop a records ⟨[], [], []⟩).1.decoders.map Prod.fst ∧
    ∀ t, ((get_messages_loop a records ⟨[], [], []⟩).1.constructed.countP
      (fun s => decide (s = t))) ≤ 1 := by
  obtain ⟨h1, h2, _⟩ := get_messages_loop_invariant a records ⟨[], [], []⟩ rfl
    (by simp) (by simp)
  exact ⟨h2, h1, fun t => countP_le_one_of_nodup h2 t⟩

theorem get_messages_loop_append (a : Avail)
    (xs ys : List (Schema × Channel × Message)) (st : LoopState) :
    get_messages_loop a (xs ++ ys) st =
      match get_messages_loop a xs st with
      | (st2, none) => get_messages_loop a ys st2
      | (st2, some e) => (st2, some e) := by
  induction xs generalizing st with
  | nil => rfl
  | cons r rest ih =>
    obtain ⟨schema, channel, message⟩ := r
    rw [List.cons_append, get_messages_loop]
    conv_rhs => rw [get_messages_loop]
    rcases hl : lookupD st.decoders schema.encoding with _ | dec
    · simp only [hl]
      rcases hc : decoder_for_schema_encoding a schema.encoding with e | dec2
      · simp only [hc]
      · simp only [hc]
        rcases hd : Decoder.decode dec2 schema message with e | decd
        · simp only [hd]
        · simp only [hd]
          exact ih _
    · simp only [hl]
      rcases hd : Decoder.decode dec schema message with e | decd
      · simp only [hd]
      · simp only [hd]
        exact ih _

/-- C3: a message whose encoding tag no available decoder supports makes
`get_messages` raise at the first offending record — provided every record
before it was processed without error, the call returns exactly the
construction error for that record's tag, and no partial list: the `.error`
result carries none of the messages decoded before it. -/
theorem get_messages_unsupported (a : Avail)
    (pre post : List (Schema × Channel × Message)) (bad : Schema × Channel × Message)
    (e : PyErr)
    (hpre : (get_messages_loop a pre ⟨[], [], []⟩).2 = none)
    (hbad : decoder_for_schema_encoding a bad.1.encoding = .error e) :
    get_messages a (pre ++ bad :: post) = .error e := by
  obtain ⟨schema, channel, message⟩ := bad
  rw [get_messages, get_messages_loop_append]
  rcases hrun : get_messages_loop a pre ⟨[], [], []⟩ with ⟨st2, err⟩
  rw [hrun] at hpre
  simp only [] at hpre
  subst hpre
  simp only []
  obtain ⟨hkeys, _, hok⟩ := get_messages_loop_invariant a pre ⟨[], [], []⟩ rfl
    (by simp) (by simp)
  rw [hrun] at hkeys hok
  have hnot : lookupD st2.decoders schema.encoding = none := by
    rw [lookupD_none_iff]
    intro hmem
    obtain ⟨d, hd⟩ := hok _ hmem
    rw [hd] at hbad
    cases hbad
  rw [get_messages_loop, hnot]
  simp only []
  rw [show decoder_for_schema_encoding a schema.encoding = .error e from hbad]

theorem get_messages_unsupported_witness :
    ((get_messages_loop noAvail [] ⟨[], [], []⟩).2 = none) ∧
    (decoder_for_schema_encoding noAvail sampleBad.1.encoding
      = .error (.runtimeImport ros1msg)) ∧
    get_messages noAvail ([] ++ sampleBad :: []) = .error (.runtimeImport ros1msg) :=
  ⟨rfl, rfl,
   get_messages_unsupported noAvail [] [] sampleBad (.runtimeImport ros1msg) rfl rfl⟩

end DataPlatform

namespace McapStream

theorem iterDecoded_messages_in_order (factories : List Factory)
    (records : List Record) (st : ReaderState) (out : List DecodedTuple)
    (h : iterDecoded factories records st = .ok out) :
    out.map (fun t => t.2.2.1) = messagesOf records := by
  induction records generalizing st out with
  | nil =>
    rw [iterDecoded] at h
    cases h
    rfl
  | cons r rest ih =>
    cases r with
    | schemaDef s =>
      rw [iterDecoded] at h
      rw [messagesOf, List.filterMap_cons]
      exact ih _ _ h
    | channelDef c =>
      rw [iterDecoded] at h
      rw [messagesOf, List.filterMap_cons]
      exact ih _ _ h
    | message m =>
      rw [iterDecoded] at h
      rcases hch : lookupId st.channels m.channel_id with _ | ch
      · simp only [hch] at h
        cases h
      · simp only [hch] at h
        rcases hsc : lookupId st.schemas ch.schema_id with _ | sc
        · simp only [hsc] at h
          cases h
        · simp only [hsc] at h
          rcases hdec : lookupEnc st.decoders ch.message_encoding with _ | dec
          · simp only [hdec] at h
            rcases hff : decoderFromFactories factories ch.message_encoding with _ | dec2
            · simp only [hff] at h
              cases h
            · simp only [hff] at h
              rcases hpl : dec2.decode m.data with _ | payload
              · simp only [hpl] at h
                cases h
              · simp only [hpl] at h
                rcases hrec : iterDecoded factories rest
                    { st with decoders := st.decoders ++ [(ch.message_encoding, dec2)] }
                  with e | out2
                · rw [hrec] at h
                  cases h
                · rw [hrec] at h
                  simp only [Except.map] at h
                  cases h
                  rw [List.map_cons, messagesOf, List.filterMap_cons]
                  simp only []
                  rw [ih _ _ hrec]
                  rfl
          · simp only [hdec] at h
            rcases hpl : dec.decode m.data with _ | payload
            · simp only [hpl] at h
              cases h
            · simp only [hpl] at h
              rcases hrec : iterDecoded factories rest st with e | out2
              · rw [hrec] at h
                cases h
              · rw [hrec] at h
                simp only [Except.map] at h
                cases h
                rw [List.map_cons, messagesOf, List.filterMap_cons]
                simp only []
                rw [ih _ _ hrec]
                rfl

/-- C1: for every container whose records the reader accepts, `iter_messages`
yields exactly one four-tuple per message record — the raw messages of the
yielded tuples are exactly the container's message records in arrival order
(no re-sorting by log time: the `log_time_order=False` path returns the
arrival-ordered sequence unsorted). -/
theorem iter_messages_yields_in_order (factories : List Factory)
    (records : List Record) (out : List DecodedTuple)
    (h : iter_messages factories records = .ok out) :
    out.length = (messagesOf records).length ∧
    out.map (fun t => t.2.2.1) = messagesOf records := by
  rw [iter_messages, iter_decoded_messages] at h
  rcases hrun : iterDecoded factories records ⟨[], [], []⟩ with e | res
  · rw [hrun] at h
    cases h
  · rw [hrun] at h
    simp only [Except.map, Bool.false_eq_true, if_false] at h
    have hout : res = out := by cases h; rfl
    subst hout
    have horder := iterDecoded_messages_in_order factories records ⟨[], [], []⟩ res hrun
    refine ⟨?_, horder⟩
    rw [← horder, List.length_map]

theorem iter_messages_yields_in_order_witness :
    (iter_messages [Factory.jsonFactory, Factory.ros1Factory] sampleRecords = .ok sampleOut) ∧
    (sampleOut.length = (messagesOf sampleRecords).length ∧
     sampleOut.map (fun t => t.2.2.1) = messagesOf sampleRecords) :=
  ⟨rfl, iter_messages_yields_in_order [Factory.jsonFactory, Factory.ros1Factory]
    sampleRecords sampleOut rfl⟩

end McapStream

namespace Defaults

theorem deepcopy_extends (h : Heap) (rs : List Nat) :
    ∃ ext, (deepcopy h rs).1.cells = h.cells ++ ext := by
  induction rs generalizing h with
  | nil => exact ⟨[], by simp [deepcopy]⟩
  | cons r rest ih =>
    rw [deepcopy]
    obtain ⟨ext, hext⟩ := ih ⟨h.cells ++ [(h.get r).getD ⟨0, []⟩]⟩
    refine ⟨(h.get r).getD ⟨0, []⟩ :: ext, ?_⟩
    simp only [Heap.alloc] at hext ⊢
    rw [hext]
    simp

theorem deepcopy_refs_fresh (h : Heap) (rs : List Nat) :
    ∀ r2 ∈ (deepcopy h rs).2, h.cells.length ≤ r2 := by
  induction rs generalizing h with
  | nil => intro r2 hr2; cases hr2
  | cons r rest ih =>
    intro r2 hr2
    rw [deepcopy] at hr2
    simp only [Heap.alloc, List.mem_cons] at hr2
    rcases hr2 with hr2 | hr2
    · omega
    · have := ih ⟨h.cells ++ [(h.get r).getD ⟨0, []⟩]⟩ r2 hr2
      simp only [List.length_append, List.length_singleton] at this
      omega

theorem mutateAll_outside (e : List Char) (h : Heap) (refs : List Nat) (r : Nat)
    (hr : r ∉ refs) : (mutateAll e h refs).get r = h.get r := by
  induction refs generalizing h with
  | nil => rfl
  | cons r0 rest ih =>
    rw [List.mem_cons] at hr
    push_neg at hr
    rw [mutateAll]
    rcases hg : h.get r0 with _ | s
    · exact ih _ hr.2
    · rw [ih _ hr.2]
      simp only [Heap.get, Heap.set]
      exact List.getElem?_set_ne (Ne.symm hr.1)

theorem runSession_outside (refs : List Nat) (h : Heap) (msgs : List (List Char)) (r : Nat)
    (hr : r ∉ refs) : (runSession refs h msgs).get r = h.get r := by
  induction msgs generalizing h with
  | nil => rfl
  | cons e msgs ih =>
    rw [runSession, ih _, mutateAll_outside _ _ _ _ hr]

/-- C8: decoder state does not leak across decode sessions — a call with
`decoder_factories` omitted hands the reader a deep copy of the module-level
`DEFAULT_DECODER_FACTORIES`, so after the call every default factory's state
is exactly what it was before, and a subsequent call (which deep-copies the
defaults afresh) observes the same factory states as a call on the original
heap: no decoder instances or mutated factory state cross the session
boundary. -/
theorem default_factories_unchanged (h : Heap) (defaults : List Nat)
    (msgs : List (List Char)) (hvalid : ∀ r ∈ defaults, r < h.cells.length) :
    (∀ r ∈ defaults, (run_with_default_factories h defaults msgs).1.get r = h.get r) ∧
    defaults.map ((run_with_default_factories h defaults msgs).1.get) =
      defaults.map h.get := by
  have hmain : ∀ r ∈ defaults,
      (run_with_default_factories h defaults msgs).1.get r = h.get r := by
    intro r hr
    have hlt := hvalid r hr
    rw [run_with_default_factories]
    simp only []
    rw [runSession_outside]
    · obtain ⟨ext, hext⟩ := deepcopy_extends h defaults
      rw [Heap.get, hext, List.getElem?_append, if_pos hlt]
      rfl
    · intro hmem
      have := deepcopy_refs_fresh h defaults r hmem
      omega
  refine ⟨hmain, ?_⟩
  apply List.map_congr_left
  intro r hr
  exact hmain r hr

theorem default_factories_unchanged_witness :
    (∀ r ∈ ([0] : List Nat), r < (Heap.mk [⟨7, []⟩]).cells.length) ∧
    ((∀ r ∈ ([0] : List Nat),
        (run_with_default_factories ⟨[⟨7, []⟩]⟩ [0] [['j']]).1.get r
          = (Heap.mk [⟨7, []⟩]).get r) ∧
      ([0] : List Nat).map ((run_with_default_factories ⟨[⟨7, []⟩]⟩ [0] [['j']]).1.get)
        = ([0] : List Nat).map (Heap.mk [⟨7, []⟩]).get) :=
  ⟨by decide,
   default_factories_unchanged ⟨[⟨7, []⟩]⟩ [0] [['j']] (by decide)⟩

end Defaults
